import Mathlib

/-!
Formal model of the NER post-processing pipeline and of the dynamic batch
scheduler of this service (source files `app/postprocess.py`, `app/infer.py`,
`app/main.py`).

Python strings are modelled as lists of characters (`Txt`), so that Python's
character indices become list indices.  Python's `re` library is modelled at
its interface: a compiled pattern's `finditer` result is a list of match
ranges handed to the functions that consume it.  The labeling model
(`predict_bio` seen from `main.py`) is modelled as an abstract function on
lists of texts.
-/

/-- A text: a list of characters, indexed like a Python string. -/
abbrev Txt := List Char

/-- A word as produced by `split_words_with_offsets`: `(token, start, end)`
with a half-open character range into the source text. -/
abbrev Word := Txt × Nat × Nat

/-- A span `(start, end, label)` as used throughout `postprocess.py`. -/
abbrev Span := Nat × Nat × String

/-- Scanner behind `split_words_with_offsets`: walks the text one character
at a time carrying the current position and, while inside a word, the word
start offset and its accumulated characters in reverse.  This realizes
`NONSPACE.finditer(text)`: maximal runs of non-whitespace characters. -/
def splitAux : Nat → Option (Nat × Txt) → Txt → List Word
  | _, none, [] => []
  | pos, some st, [] => [(st.2.reverse, st.1, pos)]
  | pos, none, c :: cs =>
    if c.isWhitespace then splitAux (pos + 1) none cs
    else splitAux (pos + 1) (some (pos, [c])) cs
  | pos, some st, c :: cs =>
    if c.isWhitespace then (st.2.reverse, st.1, pos) :: splitAux (pos + 1) none cs
    else splitAux (pos + 1) (some (st.1, c :: st.2)) cs

/-- `split_words_with_offsets(text)` from `postprocess.py`: the list of
`(word, start, end)` for every maximal run of non-whitespace characters. -/
def split_words_with_offsets (t : Txt) : List Word := splitAux 0 none t

/-- The characters of Python's `string.punctuation`: exactly the ASCII
punctuation ranges 33-47, 58-64, 91-96 and 123-126. -/
def python_punctuation : List Char :=
  ((List.range 128).filter (fun n =>
    (decide (33 ≤ n) && decide (n ≤ 47)) || (decide (58 ≤ n) && decide (n ≤ 64)) ||
    (decide (91 ≤ n) && decide (n ≤ 96)) || (decide (123 ≤ n) && decide (n ≤ 126)))).map Char.ofNat

/-- The strip set of `_normalize_token`: `string.punctuation` plus the extra
quote and bracket characters of the literal `"«»\"'()[]\x7b\x7d"` and the
code points `«`/`»`; all of those except `«` and `»` are already in
`string.punctuation`. -/
def strip_set : List Char := python_punctuation ++ ['«', '»']

/-- `str.lower`, restricted to the ASCII and Cyrillic letters this code base
can meet: `A`-`Z`, `А`-`Я` and `Ё`. -/
def lowerChar (c : Char) : Char :=
  if 'A' ≤ c ∧ c ≤ 'Z' then Char.ofNat (c.toNat + 32)
  else if 'А' ≤ c ∧ c ≤ 'Я' then Char.ofNat (c.toNat + 32)
  else if c = 'Ё' then 'ё'
  else c

/-- `token.strip(...)`: drop characters of the strip set from both ends. -/
def stripEnds (s : Txt) : Txt :=
  ((s.dropWhile (fun c => strip_set.contains c)).reverse.dropWhile
    (fun c => strip_set.contains c)).reverse

/-- `_normalize_token` from `postprocess.py`: strip punctuation and quotes
from both ends, then lowercase. -/
def normalize_token (tok : Txt) : Txt := (stripEnds tok).map lowerChar

/-- `_norm_for_fuzzy` from `postprocess.py`: `_normalize_token`, then
`replace("ё", "е")` and `replace("ъ", "")`. -/
def norm_for_fuzzy (tok : Txt) : Txt :=
  ((normalize_token tok).map (fun c => if c = 'ё' then 'е' else c)).filter (fun c => c ≠ 'ъ')

/-- Inner row of the `_levenshtein` dynamic program.  `last` is Python's
`cur[-1]`, the previous row is consumed pairwise so that the head pattern
exposes `prev[j-1]` and `prev[j]`. -/
def levRow (ca : Char) : Nat → List Nat → Txt → List Nat
  | _, [], _ => []
  | _, [_], _ => []
  | _, _, [] => []
  | last, pjm1 :: pj :: prest, cb :: bs =>
    let cost : Nat := if ca = cb then 0 else 1
    let v := Nat.min (last + 1) (Nat.min (pj + 1) (pjm1 + cost))
    v :: levRow ca v (pj :: prest) bs

/-- `_levenshtein` from `postprocess.py`: early returns for equal or empty
arguments, then the row-by-row dynamic program. -/
def levenshteinDist (a b : Txt) : Nat :=
  if a = b then 0
  else if a = [] then b.length
  else if b = [] then a.length
  else
    (a.enum.foldl (fun prev p => (p.1 + 1) :: levRow p.2 (p.1 + 1) prev b)
      (List.range (b.length + 1))).getLastD 0

/-- `s` starts with `pre` (Python `str.startswith`). -/
def listStartsWith : Txt → Txt → Bool
  | _, [] => true
  | [], _ :: _ => false
  | c :: cs, d :: ds => c == d && listStartsWith cs ds

/-- `_is_adj_big` from `postprocess.py`. -/
def is_adj_big (tok : Txt) : Bool :=
  let t := norm_for_fuzzy tok
  if listStartsWith t "больш".toList then true
  else decide (levenshteinDist t "большой".toList ≤ 1)

/-- `_is_noun_volume` from `postprocess.py`. -/
def is_noun_volume (tok : Txt) : Bool :=
  let t := norm_for_fuzzy tok
  ["объем".toList, "обьем".toList, "обем".toList].any
    (fun tgt => decide (levenshteinDist t tgt ≤ 1))

example : split_words_with_offsets "в пакете".toList =
    [("в".toList, 0, 1), ("пакете".toList, 2, 8)] := by decide
example : normalize_token "«Большой»".toList = "большой".toList := by decide
example : levenshteinDist "обьем".toList "объем".toList = 1 := by decide
example : is_adj_big "Большой".toList = true := by decide
example : is_noun_volume "обьем".toList = true := by decide
example : is_noun_volume "молоко".toList = false := by decide

/-- Strip a BIO prefix as Python's `lab.split("-", 1)[-1] if "-" in lab else
lab`: everything after the first `-` when there is one. -/
def stripLabel (lab : String) : String :=
  if lab.data.contains '-' then ((lab.data.dropWhile (fun c => c ≠ '-')).tail).asString
  else lab

/-- Strict lexicographic comparison of the sort key `(start, end)` used by
`sorted(spans, key=lambda x: (x[0], x[1]))`. -/
def spanKeyLT (a b : Span) : Bool :=
  decide (a.1 < b.1) || (decide (a.1 = b.1) && decide (a.2.1 < b.2.1))

/-- Insert a span after every element whose key is not strictly greater,
giving a stable insertion sort. -/
def insertSpan (x : Span) : List Span → List Span
  | [] => [x]
  | y :: l => if spanKeyLT x y then x :: y :: l else y :: insertSpan x l

/-- Stable sort of spans by `(start, end)`, Python's `sorted` with that key. -/
def sortSpans (l : List Span) : List Span := l.foldl (fun acc x => insertSpan x acc) []

/-- Index search over words: return the index (counting from `k`) of the
first word satisfying `p`, or none. -/
def findFromAux (p : Word → Bool) : Nat → List Word → Option Nat
  | _, [] => none
  | k, w :: rest => if p w then some k else findFromAux p (k + 1) rest

/-- Index of the first word whose half-open range contains offset `s`
(the `ws <= s < we` search loop with `break`). -/
def findWordCovering (words : List Word) (s : Nat) : Option Nat :=
  findFromAux (fun w => decide (w.2.1 ≤ s) && decide (s < w.2.2)) 0 words

/-- One token of the projection loop in `derive_word_bio_from_token_spans`:
skip `"O"` tokens, find the word covering the token start, and assign the
stripped base type only when that word is still `"O"`. -/
def assignTok (words : List Word) (base : List String) (sp : Span) : List String :=
  if sp.2.2 = "O" then base
  else
    match findWordCovering words sp.1 with
    | none => base
    | some wi => if base.getD wi "" = "O" then base.set wi (stripLabel sp.2.2) else base

/-- The projection half of `derive_word_bio_from_token_spans`: start from
all-`"O"` word bases and fold the token spans in ascending `(start, end)`
order through `assignTok`. -/
def projectTokenSpans (words : List Word) (token_spans : List Span) : List String :=
  (sortSpans token_spans).foldl (assignTok words) (List.replicate words.length "O")

/-- The left-to-right BIO recomputation scan shared by
`derive_word_bio_from_token_spans` and `apply_word_level_rules`, with the
`prev_type` state made explicit. -/
def recomputeAux : Option String → List String → List String
  | _, [] => []
  | prev, t :: rest =>
    if t = "O" then "O" :: recomputeAux none rest
    else if prev = some t then ("I-" ++ t) :: recomputeAux (some t) rest
    else ("B-" ++ t) :: recomputeAux (some t) rest

/-- Recompute BIO tags across words from a base-type sequence. -/
def recompute_word_tags (base : List String) : List String := recomputeAux none base

/-- `derive_word_bio_from_token_spans` from `postprocess.py`: token-to-word
projection followed by the BIO recomputation scan. -/
def derive_word_bio_from_token_spans (words : List Word) (token_spans : List Span) :
    List String :=
  recompute_word_tags (projectTokenSpans words token_spans)

/-- Base-label extraction at the start of `apply_word_level_rules`:
`b.split("-", 1)[-1] if b != "O" else "O"`. -/
def strip_tag (b : String) : String := if b ≠ "O" then stripLabel b else "O"

/-- The intersection test `not (we <= s or ws >= e)` of the regex pass. -/
def matchHitsWord (s e ws we : Nat) : Bool :=
  !(decide (we ≤ s) || decide (ws ≥ e))

/-- Walk the words with their index `k`, setting position `k` of the base
list to `ty` whenever the word intersects the match range `[s, e)`. -/
def setMatchedAux (s e : Nat) (ty : String) : Nat → List Word → List String → List String
  | _, [], b => b
  | k, w :: rest, b =>
    setMatchedAux s e ty (k + 1) rest (if matchHitsWord s e w.2.1 w.2.2 then b.set k ty else b)

/-- Inner loop of the regex pass of `apply_word_level_rules`: one match
range sets the base of every word it intersects to `ty`. -/
def setMatchedWords (words : List Word) (ty : String) (b : List String) (m : Nat × Nat) :
    List String :=
  setMatchedAux m.1 m.2 ty 0 words b

/-- Regex pass of `apply_word_level_rules`: every `VOLUME_RE` match sets the
intersected words to `VOLUME`, then every `PERCENT_RE` match sets the
intersected words to `PERCENT`.  The two match lists stand for
`VOLUME_RE.finditer(text)` and `PERCENT_RE.finditer(text)`, the interface to
Python's `re` library. -/
def regexInjectPass (volM percM : List (Nat × Nat)) (words : List Word) (b : List String) :
    List String :=
  percM.foldl (setMatchedWords words "PERCENT") (volM.foldl (setMatchedWords words "VOLUME") b)

/-- One index of the fuzzy-bigram loop of `apply_word_level_rules`: if word
`i` fuzzily matches the adjective and word `i+1` the noun, force both bases
to `VOLUME`. -/
def fuzzyStep (words : List Word) (b : List String) (i : Nat) : List String :=
  let w1 := norm_for_fuzzy ((words.getD i ([], 0, 0)).1)
  let w2 := norm_for_fuzzy ((words.getD (i + 1) ([], 0, 0)).1)
  if is_adj_big w1 && is_noun_volume w2 then (b.set i "VOLUME").set (i + 1) "VOLUME" else b

/-- Fuzzy bigram pass of `apply_word_level_rules` (`for i in
range(len(words) - 1)`). -/
def fuzzyBigramPass (words : List Word) (b : List String) : List String :=
  (List.range (words.length - 1)).foldl (fuzzyStep words) b

/-- The `все`/`всё` nullification pass of `apply_word_level_rules`: when the
first word normalizes to one of the two forms, replace the bases by
`["O"] * len(words)`. -/
def startAllPass (words : List Word) (b : List String) : List String :=
  match words with
  | [] => b
  | w :: _ =>
    if normalize_token w.1 = "все".toList ∨ normalize_token w.1 = "всё".toList then
      List.replicate words.length "O"
    else b

/-- The preposition lexicon `DEFAULT_PREPOSITIONS` (a set; only membership
matters). -/
def default_prepositions : List Txt :=
  ["в".toList, "во".toList, "на".toList, "к".toList, "ко".toList, "от".toList,
   "до".toList, "из".toList, "изо".toList, "с".toList, "со".toList, "у".toList,
   "за".toList, "для".toList, "по".toList, "о".toList, "об".toList, "обо".toList,
   "при".toList, "через".toList, "над".toList, "под".toList, "перед".toList,
   "между".toList, "про".toList, "без".toList, "около".toList, "вокруг".toList,
   "после".toList, "среди".toList, "вне".toList, "кроме".toList, "ради".toList,
   "согласно".toList, "насчёт".toList, "насчет".toList, "вместо".toList,
   "вроде".toList, "наперекор".toList, "вопреки".toList, "сквозь".toList,
   "путём".toList, "путем".toList, "благодаря".toList, "из-за".toList,
   "изза".toList, "из-под".toList, "изпод".toList, "вслед".toList,
   "навстречу".toList, "мимо".toList, "вдоль".toList, "поперёк".toList,
   "поперек".toList, "вглубь".toList, "вширь".toList, "вокрест".toList,
   "попросту".toList, "доя".toList, "мытья".toList, "дл".toList]

/-- One preposition hit of the word-level nullification pass: force the
preposition word and the next `n` words (`for k in range(1, n + 1)`, guarded
by `j < len(base)`) to `"O"`. -/
def prepStep (n : Nat) (b : List String) (i : Nat) : List String :=
  (List.range n).foldl
    (fun b k => if i + k + 1 < b.length then b.set (i + k + 1) "O" else b) (b.set i "O")

/-- Walk the words with their index `k`, applying `prepStep` at every word
whose normalized token is a preposition. -/
def prepAux (n : Nat) : Nat → List Word → List String → List String
  | _, [], b => b
  | k, w :: rest, b =>
    prepAux n (k + 1) rest
      (if default_prepositions.contains (normalize_token w.1) then prepStep n b k else b)

/-- Preposition-window nullification pass of `apply_word_level_rules`. -/
def prepNullifyPass (words : List Word) (n : Nat) (b : List String) : List String :=
  prepAux n 0 words b

/-- `apply_word_level_rules` from `postprocess.py`: strip the incoming BIO
tags to bases, run the four ordered passes, then recompute BIO.  `volM` and
`percM` stand for the `VOLUME_RE`/`PERCENT_RE` match ranges over `text`;
`n` is `nullify_count_after_prep` (2 in the pipeline). -/
def apply_word_level_rules (volM percM : List (Nat × Nat)) (words : List Word)
    (tags : List String) (n : Nat) : List String :=
  recompute_word_tags
    (prepNullifyPass words n
      (startAllPass words
        (fuzzyBigramPass words
          (regexInjectPass volM percM words (tags.map strip_tag)))))

/-- `word_bio_to_spans` from `postprocess.py`: one span per word, carrying
the word's own offsets and the word's tag (`zip` truncates to the shorter
list, as in Python). -/
def word_bio_to_spans (words : List Word) (tags : List String) : List Span :=
  (words.zip tags).map (fun p => (p.1.2.1, p.1.2.2, p.2))

example :
    derive_word_bio_from_token_spans [("мол".toList, 0, 3), ("1л".toList, 4, 6)]
      [(0, 2, "B-TYPE"), (1, 3, "I-BRAND"), (4, 6, "B-VOLUME")] = ["B-TYPE", "B-VOLUME"] := by
  decide
example :
    apply_word_level_rules [(0, 2)] [] [("1л".toList, 0, 2), ("сок".toList, 3, 6)]
      ["O", "B-TYPE"] 2 = ["B-VOLUME", "B-TYPE"] := by decide
example :
    apply_word_level_rules [] [] [("все".toList, 0, 3), ("сок".toList, 4, 7)]
      ["O", "B-TYPE"] 2 = ["O", "O"] := by decide
example :
    apply_word_level_rules [] []
      [("в".toList, 0, 1), ("пакете".toList, 2, 8), ("молоко".toList, 9, 15)]
      ["O", "B-TYPE", "B-TYPE"] 2 = ["O", "O", "O"] := by decide

/-- Python's clamped slice `l[p : p + n]`. -/
def pySlice (l : List β) (p n : Nat) : List β := (l.drop p).take n

/-- The result-splitting loop of `_batch_worker` on the success path: walk
the batch keeping the running offset `p` and give each request the slice
`result[p : p + n]` where `n` is its own text count. -/
def sliceLoop (result : List β) : Nat → List (List α) → List (List β)
  | _, [] => []
  | p, x :: rest => pySlice result p x.length :: sliceLoop result (p + x.length) rest

/-- Dispatch of one batch as the pure content of `_batch_worker`:
concatenate the admitted requests' texts (`sum([x["texts"] ...], [])`),
apply the labeling function once to the flat list, and split the flat
result back by text counts. -/
def batchDispatch (f : List α → List β) (batch : List (List α)) : List (List β) :=
  sliceLoop (f batch.flatten) 0 batch

/-- Sum of the text counts of the requests preceding index `i`. -/
def offsetBefore (batch : List (List α)) (i : Nat) : Nat :=
  ((batch.take i).map List.length).sum

/-- An error delivered to a result future: the exception raised by the
labeling call, or the `InvalidStateError` raised by `Future.set_result` on a
future that is already done. -/
inductive BatchErr (E : Type) : Type
  | labelerErr : E → BatchErr E
  | invalidState : BatchErr E
deriving DecidableEq

/-- State of a caller's `asyncio.Future` result slot. -/
inductive FutSt (E β : Type) : Type
  | pending : FutSt E β
  | cancelled : FutSt E β
  | resolved : List β → FutSt E β
  | failed : BatchErr E → FutSt E β
deriving DecidableEq

/-- `future.done()` is false exactly in the pending state. -/
def FutSt.isPending : FutSt E β → Bool
  | .pending => true
  | _ => false

/-- A queued request as `_batch_worker` sees it: its text list and its
result future. -/
structure Req (α E β : Type) : Type where
  texts : List α
  fut : FutSt E β
deriving DecidableEq

/-- The success fan-out loop of `_batch_worker`: walk the batch in order,
resolving each pending future with its slice of the flat result; return the
partially updated batch together with whether `set_result` raised
`InvalidStateError`, which it does as soon as it meets a future that is
already done (cancelled or completed). -/
def fanOutAux (result : List β) : Nat → List (Req α E β) → List (Req α E β) × Bool
  | _, [] => ([], false)
  | p, x :: rest =>
    match x.fut with
    | .pending =>
      let r := fanOutAux result (p + x.texts.length) rest
      (⟨x.texts, .resolved (pySlice result p x.texts.length)⟩ :: r.1, r.2)
    | _ => (x :: rest, true)

/-- One `_batch_worker` iteration over a dispatched batch.  On a labeling
error every still-pending future receives that same error.  On success the
fan-out loop resolves futures in order, but `set_result` on an
already-completed future raises `InvalidStateError`; the surrounding
`except` then fails every future that is still pending. -/
def processBatch (f : List α → Except E (List β)) (batch : List (Req α E β)) :
    List (Req α E β) :=
  match f (batch.map Req.texts).flatten with
  | .error e =>
    batch.map (fun x => if x.fut.isPending then ⟨x.texts, .failed (.labelerErr e)⟩ else x)
  | .ok result =>
    let r := fanOutAux result 0 batch
    if r.2 then
      r.1.map (fun x => if x.fut.isPending then ⟨x.texts, .failed .invalidState⟩ else x)
    else r.1

/-- The worker loop over successive batches; batches share no state, the
loop body never escapes its `try`/`except`, so the loop survives failures. -/
def runWorker (f : List α → Except E (List β)) :
    List (List (Req α E β)) → List (List (Req α E β))
  | [] => []
  | b :: rest => processBatch f b :: runWorker f rest

/-- The admission loop of `_batch_worker` as a function of the arrival
instants of queued requests (instantaneous dispatch, no queue backlog).
After an admission at instant `last`, `asyncio.wait_for(_queue.get(),
BATCH_TIMEOUT_MS / 1000)` waits for the next arrival with a fresh timeout,
so the next request is admitted exactly when the batch is not yet full and
the next arrival is at most `last + T`.  Returns the instants admitted to
the open batch and the remaining arrivals. -/
def takeBatchAux (M T : Nat) : List Nat → Nat → Nat → List Nat × List Nat
  | [], _, _ => ([], [])
  | a :: rest, last, size =>
    if M ≤ size then ([], a :: rest)
    else if a ≤ last + T then
      let r := takeBatchAux M T rest a (size + 1)
      (a :: r.1, r.2)
    else ([], a :: rest)

theorem takeBatchAux_rest_le (M T : Nat) :
    ∀ (l : List Nat) (last size : Nat), (takeBatchAux M T l last size).2.length ≤ l.length := by
  intro l
  induction l with
  | nil => intro last size; simp [takeBatchAux]
  | cons a rest ih =>
    intro last size
    simp only [takeBatchAux]
    split
    · simp
    · split
      · exact Nat.le_succ_of_le (ih a (size + 1))
      · simp

/-- Batch formation over a whole arrival trace, structurally recursive on a
fuel bound (the length of the remaining trace strictly decreases at every
step, so the initial length is always enough fuel). -/
def formBatchesAux (M T : Nat) : Nat → List Nat → List (List Nat)
  | _, [] => []
  | 0, _ :: _ => []
  | fuel + 1, a :: rest =>
    (a :: (takeBatchAux M T rest a 1).1) ::
      formBatchesAux M T fuel (takeBatchAux M T rest a 1).2

/-- All batches formed by the worker over a whole (sorted) arrival trace:
`_queue.get()` without timeout opens a batch at the first arrival, then the
admission loop runs with per-admission timeouts. -/
def formBatches (M T : Nat) (arr : List Nat) : List (List Nat) :=
  formBatchesAux M T arr.length arr

/-- The instant a batch is dispatched: reaching the maximum size leaves the
admission loop at once (at the last admission); otherwise the timeout
expires `T` after the last admission. -/
def closeTime (M T : Nat) (b : List Nat) : Nat :=
  if M ≤ b.length then b.getLastD 0 else b.getLastD 0 + T

/-- First word index with `ws >= s`, the fallback of the span-to-word
mapping in `nullify_entities_after_prepositions`. -/
def findWordAfter (words : List Word) (s : Nat) : Option Nat :=
  findFromAux (fun w => decide (s ≤ w.2.1)) 0 words

/-- `ent_word_idx`: for each span, the index of the word covering its start,
else the first word starting at or after it, else none (Python's `-1`). -/
def entWordIdx (words : List Word) (spans : List Span) : List (Option Nat) :=
  spans.map (fun sp =>
    match findWordCovering words sp.1 with
    | some i => some i
    | none => findWordAfter words sp.1)

/-- `word_to_span_idxs[w]`: the indices of the spans mapped to word `w`,
in span order. -/
def wordSpanIdxs (ewi : List (Option Nat)) (w : Nat) : List Nat :=
  (List.range ewi.length).filter (fun ei => ewi.getD ei none = some w)

/-- `prep_indices`: word indices whose normalized token is a preposition. -/
def prepWordIdxs (words : List Word) (preps : List Txt) : List Nat :=
  (words.enum.filter (fun p => preps.contains (normalize_token p.2.1))).map (fun p => p.1)

/-- `sorted_entity_word_idxs`: ascending word indices carrying spans. -/
def sortedEntityWordIdxs (words : List Word) (ewi : List (Option Nat)) : List Nat :=
  (List.range words.length).filter (fun w => !(wordSpanIdxs ewi w).isEmpty)

/-- Step 2 of the per-preposition loop of
`nullify_entities_after_prepositions`: walk the entity words in ascending
order; skip words at or before the preposition and words any of whose spans
are already dropped; otherwise drop the word's spans, and stop once
`nullify_count` words were dropped. -/
def dropWindow (wsi : Nat → List Nat) (pidx n : Nat) :
    List Nat → Nat → List Nat → List Nat
  | [], _, drop => drop
  | w :: rest, dropped, drop =>
    if w ≤ pidx then dropWindow wsi pidx n rest dropped drop
    else if (wsi w).any (fun i => decide (i ∈ drop)) then
      dropWindow wsi pidx n rest dropped drop
    else
      if n ≤ dropped + 1 then drop ++ wsi w
      else dropWindow wsi pidx n rest (dropped + 1) (drop ++ wsi w)

/-- One preposition of the outer loop: first drop the spans on the
preposition's own word, then run the window walk. -/
def processPrep (wsi : Nat → List Nat) (sortedEW : List Nat) (n : Nat)
    (drop : List Nat) (pidx : Nat) : List Nat :=
  dropWindow wsi pidx n sortedEW 0 (drop ++ wsi pidx)

/-- `to_drop_span_idxs` after the whole preposition loop. -/
def toDropSpanIdxs (wsi : Nat → List Nat) (sortedEW : List Nat)
    (prepIdxs : List Nat) (n : Nat) : List Nat :=
  prepIdxs.foldl (processPrep wsi sortedEW n) []

/-- `covered(ws, we)`: some already-present span fully contains the word. -/
def coveredBy (acc : List Span) (ws we : Nat) : Bool :=
  acc.any (fun sp => decide (sp.1 ≤ ws) && decide (we ≤ sp.2.1))

/-- Append an explicit `"O"` span for a word unless it is covered. -/
def addWordO (words : List Word) (acc : List Span) (widx : Nat) : List Span :=
  match words.get? widx with
  | none => acc
  | some w => if coveredBy acc w.2.1 w.2.2 then acc else acc ++ [(w.2.1, w.2.2, "O")]

/-- For one preposition, append `"O"` spans for the preposition word and the
next `n` words when uncovered (`for k in range(1, nullify_count + 1)`). -/
def addPrepO (words : List Word) (n : Nat) (acc : List Span) (pidx : Nat) : List Span :=
  if pidx < words.length then
    (List.range n).foldl
      (fun acc k =>
        if pidx + k + 1 < words.length then addWordO words acc (pidx + k + 1) else acc)
      (addWordO words acc pidx)
  else acc

/-- The drop set computed by `nullify_entities_after_prepositions` for a
text and its spans: `to_drop_span_idxs` after the whole preposition loop. -/
def nullifyDropSet (text : Txt) (spans : List Span) (preps : List Txt) (n : Nat) :
    List Nat :=
  toDropSpanIdxs (wordSpanIdxs (entWordIdx (split_words_with_offsets text) spans))
    (sortedEntityWordIdxs (split_words_with_offsets text)
      (entWordIdx (split_words_with_offsets text) spans))
    (prepWordIdxs (split_words_with_offsets text) preps) n

/-- `nullify_entities_after_prepositions` from `postprocess.py`. -/
def nullify_entities_after_prepositions (text : Txt) (spans : List Span)
    (preps : List Txt) (n : Nat) : List Span :=
  if spans = [] then spans
  else if nullifyDropSet text spans preps n = [] ∧
      prepWordIdxs (split_words_with_offsets text) preps = [] then spans
  else
    sortSpans ((prepWordIdxs (split_words_with_offsets text) preps).foldl
      (addPrepO (split_words_with_offsets text) n)
      (spans.enum.map (fun p =>
        if p.1 ∈ nullifyDropSet text spans preps n then (p.2.1, p.2.2.1, "O") else p.2)))

theorem sliceLoop_length (result : List β) :
    ∀ (batch : List (List α)) (p : Nat), (sliceLoop result p batch).length = batch.length := by
  intro batch
  induction batch with
  | nil => intro p; rfl
  | cons x rest ih => intro p; simp [sliceLoop, ih]

theorem offsetBefore_succ (x : List α) (rest : List (List α)) (i : Nat) :
    offsetBefore (x :: rest) (i + 1) = x.length + offsetBefore rest i := by
  simp [offsetBefore]

theorem sliceLoop_getD (result : List β) :
    ∀ (batch : List (List α)) (p i : Nat), i < batch.length →
      (sliceLoop result p batch).getD i [] =
        pySlice result (p + offsetBefore batch i) (batch.getD i []).length := by
  intro batch
  induction batch with
  | nil => intro p i h; simp at h
  | cons x rest ih =>
    intro p i h
    cases i with
    | zero => simp [sliceLoop, offsetBefore]
    | succ j =>
      have hj : j < rest.length := by simpa using h
      have := ih (p + x.length) j hj
      simp only [sliceLoop, List.getD_cons_succ, offsetBefore_succ, this]
      rw [Nat.add_assoc]

theorem sliceLoop_flatten (result : List β) :
    ∀ (batch : List (List α)) (p : Nat),
      result.length = p + (batch.map List.length).sum →
      (sliceLoop result p batch).flatten = result.drop p := by
  intro batch
  induction batch with
  | nil =>
    intro p h
    simp only [sliceLoop, List.flatten_nil]
    rw [eq_comm, List.drop_eq_nil_iff]
    simp at h
    omega
  | cons x rest ih =>
    intro p h
    simp only [sliceLoop, List.flatten_cons]
    rw [ih (p + x.length) (by simp at h ⊢; omega)]
    have hdd : result.drop (p + x.length) = (result.drop p).drop x.length := by
      rw [List.drop_drop, Nat.add_comm]
    rw [hdd]
    exact List.take_append_drop x.length (result.drop p)

/-- C1: the dispatch step of `_batch_worker` concatenates the admitted
requests' texts in submission order, labels the flat list once, and
resolves request `i` with exactly the slice whose offset is the sum of the
preceding requests' text counts and whose length is its own text count;
re-joining all the slices in order recovers the entire flat result
(order preservation at request and within-request granularity). -/
theorem batch_dispatch_slices (f : List α → List β) (batch : List (List α))
    (hf : ∀ ts, (f ts).length = ts.length) :
    (batchDispatch f batch).length = batch.length ∧
    (∀ i, i < batch.length →
      (batchDispatch f batch).getD i [] =
        pySlice (f batch.flatten) (offsetBefore batch i) (batch.getD i []).length) ∧
    (batchDispatch f batch).flatten = f batch.flatten := by
  refine ⟨sliceLoop_length _ _ _, fun i hi => ?_, ?_⟩
  · simpa using sliceLoop_getD (f batch.flatten) batch 0 i hi
  · have hlen : (f batch.flatten).length = 0 + (batch.map List.length).sum := by
      rw [hf batch.flatten]
      simp [List.length_flatten]
    simpa using sliceLoop_flatten (f batch.flatten) batch 0 hlen

/-- Witness for C1: a concrete two-request batch with a length-preserving
labeling function. -/
theorem batch_dispatch_slices_witness :
    (batchDispatch (fun ts => ts.map (fun x => x + 1)) [[1, 2], [3]]).getD 1 [] =
      pySlice (([[1, 2], [3]] : List (List Nat)).flatten.map (fun x => x + 1))
        (offsetBefore ([[1, 2], [3]] : List (List Nat)) 1)
        (([[1, 2], [3]] : List (List Nat)).getD 1 []).length :=
  (batch_dispatch_slices (fun ts => ts.map (fun x => x + 1)) [[1, 2], [3]]
    (fun ts => by simp)).2.1 1 (by decide)

theorem bTag_ne_O (t : String) : ("B-" ++ t) ≠ "O" := by
  intro h
  have h2 := congrArg String.data h
  simp [String.data_append] at h2

theorem iTag_ne_O (t : String) : ("I-" ++ t) ≠ "O" := by
  intro h
  have h2 := congrArg String.data h
  simp [String.data_append] at h2

theorem bTag_ne_iTag (s t : String) : ("B-" ++ s) ≠ ("I-" ++ t) := by
  intro h
  have h2 := congrArg String.data h
  simp [String.data_append] at h2

theorem iTag_inj {s t : String} (h : ("I-" ++ s) = "I-" ++ t) : s = t := by
  have h2 := congrArg String.data h
  simp [String.data_append] at h2
  exact String.ext h2

theorem recomputeAux_length : ∀ (l : List String) (prev : Option String),
    (recomputeAux prev l).length = l.length := by
  intro l
  induction l with
  | nil => intro prev; rfl
  | cons t rest ih =>
    intro prev
    by_cases h : t = "O"
    · simp [recomputeAux, h, ih]
    · by_cases h2 : prev = some t
      · simp [recomputeAux, h, h2, ih]
      · simp [recomputeAux, h, h2, ih]

/-- The `prev_type` state after scanning one base label. -/
def prevTag (t : String) : Option String := if t = "O" then none else some t

theorem recomputeAux_getD : ∀ (l : List String) (prev : Option String) (i : Nat),
    i < l.length →
    (recomputeAux prev l).getD i "" =
      (if l.getD i "" = "O" then "O"
       else if (if i = 0 then prev else prevTag (l.getD (i - 1) "")) = some (l.getD i "") then
         "I-" ++ l.getD i ""
       else "B-" ++ l.getD i "") := by
  intro l
  induction l with
  | nil => intro prev i h; simp at h
  | cons t rest ih =>
    intro prev i h
    cases i with
    | zero =>
      by_cases ht : t = "O"
      · simp [recomputeAux, ht]
      · by_cases hp : prev = some t
        · simp [recomputeAux, ht, hp]
        · simp [recomputeAux, ht, hp]
    | succ j =>
      have hj : j < rest.length := by simpa using h
      have hstep : (recomputeAux prev (t :: rest)).getD (j + 1) "" =
          (recomputeAux (prevTag t) rest).getD j "" := by
        by_cases ht : t = "O"
        · simp [recomputeAux, ht, prevTag]
        · by_cases hp : prev = some t
          · simp [recomputeAux, ht, hp, prevTag]
          · simp [recomputeAux, ht, hp, prevTag]
      rw [hstep, ih (prevTag t) j hj]
      cases j with
      | zero => simp
      | succ k => simp

/-- C9: after BIO recomputation, a word whose base differs from its
predecessor's (or which is first) opens its run with `B-<type>`, a word
equal to its non-`"O"` predecessor continues with `I-<type>`, `"O"` passes
through unchanged, and every `I-<type>` is immediately preceded by a
`B-<type>` or `I-<type>` of the same type. -/
theorem recompute_tags_spec (base : List String) :
    (recompute_word_tags base).length = base.length ∧
    (∀ i, i < base.length →
      (base.getD i "" = "O" ↔ (recompute_word_tags base).getD i "" = "O")) ∧
    (∀ i, i < base.length → base.getD i "" ≠ "O" →
      (recompute_word_tags base).getD i "" =
        (if i = 0 ∨ base.getD (i - 1) "" ≠ base.getD i "" then "B-" ++ base.getD i ""
         else "I-" ++ base.getD i "")) ∧
    (∀ i t, i < base.length → (recompute_word_tags base).getD i "" = "I-" ++ t →
      0 < i ∧ base.getD i "" = t ∧
        ((recompute_word_tags base).getD (i - 1) "" = "B-" ++ t ∨
         (recompute_word_tags base).getD (i - 1) "" = "I-" ++ t)) := by
  have hchar : ∀ i, i < base.length →
      (recompute_word_tags base).getD i "" =
        (if base.getD i "" = "O" then "O"
         else if (if i = 0 then none else prevTag (base.getD (i - 1) "")) =
             some (base.getD i "") then
           "I-" ++ base.getD i ""
         else "B-" ++ base.getD i "") :=
    fun i hi => recomputeAux_getD base none i hi
  have hBI : ∀ i, i < base.length → base.getD i "" ≠ "O" →
      (recompute_word_tags base).getD i "" =
        (if i = 0 ∨ base.getD (i - 1) "" ≠ base.getD i "" then "B-" ++ base.getD i ""
         else "I-" ++ base.getD i "") := by
    intro i hi hne
    rw [hchar i hi]
    cases i with
    | zero =>
      rw [if_neg hne]
      have h1 : (if (0 : Nat) = 0 then (none : Option String) else prevTag (base.getD (0 - 1) "")) =
          none := by simp
      rw [h1]
      have h2 : (none : Option String) ≠ some (base.getD 0 "") := by simp
      rw [if_neg h2, if_pos (Or.inl rfl)]
    | succ j =>
      rw [if_neg hne]
      have h10 : ¬ (j + 1 = 0) := by omega
      rw [if_neg h10]
      simp only [Nat.add_sub_cancel]
      by_cases hprev : base.getD j "" = base.getD (j + 1) ""
      · have hpne : base.getD j "" ≠ "O" := by rw [hprev]; exact hne
        have hsome : prevTag (base.getD j "") = some (base.getD (j + 1) "") := by
          rw [prevTag, if_neg hpne, hprev]
        have hcond : ¬ (j + 1 = 0 ∨ base.getD j "" ≠ base.getD (j + 1) "") := by
          push_neg
          exact ⟨h10, hprev⟩
        rw [if_pos hsome, if_neg hcond]
      · have hcond : j + 1 = 0 ∨ base.getD j "" ≠ base.getD (j + 1) "" := Or.inr hprev
        have hnsome : prevTag (base.getD j "") ≠ some (base.getD (j + 1) "") := by
          rw [prevTag]
          by_cases hpO : base.getD j "" = "O"
          · rw [if_pos hpO]; exact Option.noConfusion
          · rw [if_neg hpO]
            intro hc
            exact hprev (Option.some.inj hc)
        rw [if_neg hnsome, if_pos hcond]
  refine ⟨recomputeAux_length base none, ?_, hBI, ?_⟩
  · intro i hi
    constructor
    · intro hO; rw [hchar i hi, if_pos hO]
    · intro hO
      by_contra hne
      rw [hBI i hi hne] at hO
      by_cases hcond : i = 0 ∨ base.getD (i - 1) "" ≠ base.getD i ""
      · rw [if_pos hcond] at hO; exact bTag_ne_O _ hO
      · rw [if_neg hcond] at hO; exact iTag_ne_O _ hO
  · intro i t hi hIt
    have hne : base.getD i "" ≠ "O" := by
      intro hO
      have hx := hchar i hi
      rw [hIt, if_pos hO] at hx
      exact iTag_ne_O t hx
    have h3 := hBI i hi hne
    rw [hIt] at h3
    by_cases hcond : i = 0 ∨ base.getD (i - 1) "" ≠ base.getD i ""
    · rw [if_pos hcond] at h3
      exact absurd h3.symm (bTag_ne_iTag _ _)
    · rw [if_neg hcond] at h3
      push_neg at hcond
      have hipos : 0 < i := Nat.pos_of_ne_zero hcond.1
      have hteq : base.getD i "" = t := iTag_inj h3.symm
      have hprev : base.getD (i - 1) "" = t := by rw [hcond.2, hteq]
      have hprevne : base.getD (i - 1) "" ≠ "O" := by rw [hprev, ← hteq]; exact hne
      have him : i - 1 < base.length := by omega
      have h4 := hBI (i - 1) him hprevne
      rw [hprev] at h4
      have hor : (recompute_word_tags base).getD (i - 1) "" = "B-" ++ t ∨
          (recompute_word_tags base).getD (i - 1) "" = "I-" ++ t := by
        by_cases hc2 : i - 1 = 0 ∨ base.getD (i - 1 - 1) "" ≠ t
        · left; rw [h4, if_pos hc2]
        · right; rw [h4, if_neg hc2]
      exact ⟨hipos, hteq, hor⟩

/-- Witness for C9 at a concrete two-word run. -/
theorem recompute_tags_spec_witness :
    (recompute_word_tags ["VOLUME", "VOLUME"]).getD 1 "" = "I-VOLUME" := by
  have h := (recompute_tags_spec ["VOLUME", "VOLUME"]).2.2.1 1 (by decide) (by decide)
  rw [h]
  decide

/-- The word at index `i` intersects the match range `m`, with `i` in
bounds: the condition under which the regex pass writes position `i`. -/
def wordHit (words : List Word) (i : Nat) (m : Nat × Nat) : Bool :=
  decide (i < words.length) &&
    matchHitsWord m.1 m.2 (words.getD i ([], 0, 0)).2.1 (words.getD i ([], 0, 0)).2.2

theorem setMatchedAux_length (s e : Nat) (ty : String) :
    ∀ (ws : List Word) (k : Nat) (b : List String),
      (setMatchedAux s e ty k ws b).length = b.length := by
  intro ws
  induction ws with
  | nil => intro k b; rfl
  | cons w rest ih =>
    intro k b
    simp only [setMatchedAux]
    rw [ih]
    split <;> simp


theorem setMatchedAux_getD (s e : Nat) (ty : String) :
    ∀ (ws : List Word) (k : Nat) (b : List String) (i : Nat),
      (setMatchedAux s e ty k ws b).getD i "" =
        if k ≤ i ∧ i - k < ws.length ∧
            matchHitsWord s e (ws.getD (i - k) ([], 0, 0)).2.1
              (ws.getD (i - k) ([], 0, 0)).2.2 = true ∧ i < b.length
        then ty else b.getD i "" := by
  intro ws
  induction ws with
  | nil =>
    intro k b i
    rw [setMatchedAux, if_neg]
    intro h
    simp at h
  | cons w rest ih =>
    intro k b i
    simp only [setMatchedAux]
    rw [ih]
    have hblen : (if matchHitsWord s e w.2.1 w.2.2 = true then b.set k ty else b).length =
        b.length := by split <;> simp
    rcases Nat.lt_trichotomy i k with hik | hik | hik
    · have hn1 : ¬ (k + 1 ≤ i ∧ i - (k + 1) < rest.length ∧
          matchHitsWord s e (rest.getD (i - (k + 1)) ([], 0, 0)).2.1
            (rest.getD (i - (k + 1)) ([], 0, 0)).2.2 = true ∧
          i < (if matchHitsWord s e w.2.1 w.2.2 = true then b.set k ty else b).length) :=
        fun hc => absurd hc.1 (by omega)
      have hn2 : ¬ (k ≤ i ∧ i - k < (w :: rest).length ∧
          matchHitsWord s e ((w :: rest).getD (i - k) ([], 0, 0)).2.1
            ((w :: rest).getD (i - k) ([], 0, 0)).2.2 = true ∧ i < b.length) :=
        fun hc => absurd hc.1 (by omega)
      rw [if_neg hn1, if_neg hn2]
      split
      · rw [List.getD_eq_getElem?_getD, List.getElem?_set, if_neg (by omega),
          ← List.getD_eq_getElem?_getD]
      · rfl
    · subst hik
      have hn1 : ¬ (i + 1 ≤ i ∧ i - (i + 1) < rest.length ∧
          matchHitsWord s e (rest.getD (i - (i + 1)) ([], 0, 0)).2.1
            (rest.getD (i - (i + 1)) ([], 0, 0)).2.2 = true ∧
          i < (if matchHitsWord s e w.2.1 w.2.2 = true then b.set i ty else b).length) :=
        fun hc => absurd hc.1 (by omega)
      rw [if_neg hn1]
      by_cases hw : matchHitsWord s e w.2.1 w.2.2 = true
      · rw [if_pos hw]
        by_cases hib : i < b.length
        · rw [if_pos (by exact ⟨le_refl i, by simp, by simpa [Nat.sub_self] using hw, hib⟩)]
          rw [List.getD_eq_getElem?_getD, List.getElem?_set, if_pos rfl, if_pos hib]
          rfl
        · rw [if_neg (fun hc => hib hc.2.2.2)]
          rw [List.getD_eq_getElem?_getD, List.getElem?_set, if_pos rfl, if_neg hib]
          rw [List.getD_eq_getElem?_getD, List.getElem?_eq_none (by omega)]
      · rw [if_neg hw, if_neg]
        intro hc
        exact hw (by simpa [Nat.sub_self] using hc.2.2.1)
    · have hsub : i - k = (i - (k + 1)) + 1 := by omega
      by_cases hcond : k + 1 ≤ i ∧ i - (k + 1) < rest.length ∧
          matchHitsWord s e (rest.getD (i - (k + 1)) ([], 0, 0)).2.1
            (rest.getD (i - (k + 1)) ([], 0, 0)).2.2 = true ∧ i < b.length
      · rw [if_pos (by rw [hblen]; exact hcond), if_pos]
        refine ⟨by omega, by simp; omega, ?_, hcond.2.2.2⟩
        rw [hsub, List.getD_cons_succ]
        exact hcond.2.2.1
      · have hnc : ¬ (k ≤ i ∧ i - k < (w :: rest).length ∧
            matchHitsWord s e ((w :: rest).getD (i - k) ([], 0, 0)).2.1
              ((w :: rest).getD (i - k) ([], 0, 0)).2.2 = true ∧ i < b.length) := by
          intro hc
          apply hcond
          refine ⟨by omega, by simp at hc; omega, ?_, hc.2.2.2⟩
          have h1 := hc.2.2.1
          rw [hsub, List.getD_cons_succ] at h1
          exact h1
        rw [if_neg (by rw [hblen]; exact hcond), if_neg hnc]
        split
        · rw [List.getD_eq_getElem?_getD, List.getElem?_set, if_neg (by omega),
            ← List.getD_eq_getElem?_getD]
        · rfl

theorem setMatchedWords_getD (words : List Word) (ty : String) (b : List String)
    (m : Nat × Nat) (i : Nat) :
    (setMatchedWords words ty b m).getD i "" =
      if wordHit words i m = true ∧ i < b.length then ty else b.getD i "" := by
  have hiff : (0 ≤ i ∧ i - 0 < words.length ∧
      matchHitsWord m.1 m.2 (words.getD (i - 0) ([], 0, 0)).2.1
        (words.getD (i - 0) ([], 0, 0)).2.2 = true ∧ i < b.length) ↔
      (wordHit words i m = true ∧ i < b.length) := by
    simp only [Nat.sub_zero, wordHit, Bool.and_eq_true, decide_eq_true_eq]
    constructor
    · intro h
      exact ⟨⟨h.2.1, h.2.2.1⟩, h.2.2.2⟩
    · intro h
      exact ⟨Nat.zero_le i, h.1.1, h.1.2, h.2⟩
  rw [setMatchedWords, setMatchedAux_getD, if_congr hiff rfl rfl]

theorem matchFold_length (words : List Word) (ty : String) :
    ∀ (ms : List (Nat × Nat)) (b : List String),
      (ms.foldl (setMatchedWords words ty) b).length = b.length := by
  intro ms
  induction ms with
  | nil => intro b; rfl
  | cons m rest ih =>
    intro b
    rw [List.foldl_cons, ih, setMatchedWords, setMatchedAux_length]

theorem matchFold_getD (words : List Word) (ty : String) :
    ∀ (ms : List (Nat × Nat)) (b : List String) (i : Nat),
      (ms.foldl (setMatchedWords words ty) b).getD i "" =
        if ms.any (wordHit words i) = true ∧ i < b.length then ty else b.getD i "" := by
  intro ms
  induction ms with
  | nil => intro b i; simp
  | cons m rest ih =>
    intro b i
    rw [List.foldl_cons, ih, List.any_cons]
    have hlen : (setMatchedWords words ty b m).length = b.length := by
      rw [setMatchedWords, setMatchedAux_length]
    rw [hlen, setMatchedWords_getD]
    by_cases hib : i < b.length
    · by_cases hrest : rest.any (wordHit words i) = true
      · rw [if_pos ⟨hrest, hib⟩, if_pos ⟨by simp [hrest], hib⟩]
      · by_cases hm : wordHit words i m = true
        · rw [if_neg (fun hc => hrest hc.1), if_pos ⟨hm, hib⟩, if_pos ⟨by simp [hm], hib⟩]
        · have hn : ¬ ((wordHit words i m || rest.any (wordHit words i)) = true ∧
              i < b.length) := by
            intro hc
            rcases (by simpa using hc.1 :
              wordHit words i m = true ∨ rest.any (wordHit words i) = true) with h | h
            · exact hm h
            · exact hrest h
          rw [if_neg (fun hc => hrest hc.1), if_neg (fun hc => hm hc.1), if_neg hn]
    · have h1 : ¬ (rest.any (wordHit words i) = true ∧ i < b.length) := fun hc => hib hc.2
      have h2 : ¬ (wordHit words i m = true ∧ i < b.length) := fun hc => hib hc.2
      have h3 : ¬ ((wordHit words i m || rest.any (wordHit words i)) = true ∧ i < b.length) :=
        fun hc => hib hc.2
      rw [if_neg h1, if_neg h2, if_neg h3]

theorem regexInjectPass_length (volM percM : List (Nat × Nat)) (words : List Word)
    (b : List String) : (regexInjectPass volM percM words b).length = b.length := by
  rw [regexInjectPass, matchFold_length, matchFold_length]

/-- C2 (amended): in the word-level regex pass, a `PERCENT` match sets every
intersected word to `PERCENT`, then a `VOLUME` match every remaining
intersected word to `VOLUME`, unconditionally — the pass never consults the
word's current base, so existing non-`"O"` bases are overwritten (the
overlap check exists only in the token-span-level `inject_regex_entities`). -/
theorem regex_pass_overwrites (volM percM : List (Nat × Nat)) (words : List Word)
    (b : List String) (i : Nat) :
    (regexInjectPass volM percM words b).length = b.length ∧
    (regexInjectPass volM percM words b).getD i "" =
      (if percM.any (wordHit words i) = true ∧ i < b.length then "PERCENT"
       else if volM.any (wordHit words i) = true ∧ i < b.length then "VOLUME"
       else b.getD i "") := by
  refine ⟨regexInjectPass_length _ _ _ _, ?_⟩
  rw [regexInjectPass, matchFold_getD, matchFold_length, matchFold_getD]

/-- C2 counterexample: take the text `"3 л"` — words `("3", 0, 1)` and
`("л", 2, 3)`, on which `VOLUME_RE` matches the whole range `(0, 3)` — with
word 0 already carrying the non-`"O"` base `BRAND`.  The match overlaps an
already-labeled word, yet the pass rewrites both words to `VOLUME`, so the
pass is not a no-op there, contradicting the claim. -/
theorem regex_pass_no_overlap_check_cex :
    wordHit [("3".toList, 0, 1), ("л".toList, 2, 3)] 0 (0, 3) = true ∧
    ["BRAND", "O"].getD 0 "" ≠ "O" ∧
    regexInjectPass [(0, 3)] [] [("3".toList, 0, 1), ("л".toList, 2, 3)] ["BRAND", "O"] =
      ["VOLUME", "VOLUME"] ∧
    regexInjectPass [(0, 3)] [] [("3".toList, 0, 1), ("л".toList, 2, 3)] ["BRAND", "O"] ≠
      ["BRAND", "O"] := by
  refine ⟨by decide, by decide, by decide, by decide⟩

theorem fuzzyStep_length (words : List Word) (b : List String) (i : Nat) :
    (fuzzyStep words b i).length = b.length := by
  rw [fuzzyStep]
  split <;> simp

theorem fuzzyFold_length (words : List Word) :
    ∀ (l : List Nat) (b : List String), (l.foldl (fuzzyStep words) b).length = b.length := by
  intro l
  induction l with
  | nil => intro b; rfl
  | cons a rest ih => intro b; rw [List.foldl_cons, ih, fuzzyStep_length]

theorem fuzzyStep_keeps_volume (words : List Word) (b : List String) (a j : Nat)
    (h : b.getD j "" = "VOLUME") : (fuzzyStep words b a).getD j "" = "VOLUME" := by
  by_cases hjb : j < b.length
  · rw [fuzzyStep]
    split
    · rw [List.getD_eq_getElem?_getD, List.getElem?_set]
      by_cases hj1 : a + 1 = j
      · rw [if_pos hj1, if_pos (by simpa using (hj1 ▸ hjb : a + 1 < b.length))]
        rfl
      · rw [if_neg hj1, List.getElem?_set]
        by_cases hj0 : a = j
        · rw [if_pos hj0, if_pos (hj0 ▸ hjb)]
          rfl
        · rw [if_neg hj0, ← List.getD_eq_getElem?_getD]
          exact h
    · exact h
  · exfalso
    rw [List.getD_eq_getElem?_getD, List.getElem?_eq_none (by omega)] at h
    simp at h

theorem fuzzyFold_keeps_volume (words : List Word) :
    ∀ (l : List Nat) (b : List String) (j : Nat), b.getD j "" = "VOLUME" →
      (l.foldl (fuzzyStep words) b).getD j "" = "VOLUME" := by
  intro l
  induction l with
  | nil => intro b j h; exact h
  | cons a rest ih =>
    intro b j h
    rw [List.foldl_cons]
    exact ih _ j (fuzzyStep_keeps_volume words b a j h)

theorem fuzzyFold_hits (words : List Word) :
    ∀ (l : List Nat) (b : List String) (i : Nat), i ∈ l →
      (is_adj_big (norm_for_fuzzy (words.getD i ([], 0, 0)).1) &&
        is_noun_volume (norm_for_fuzzy (words.getD (i + 1) ([], 0, 0)).1)) = true →
      i + 1 < b.length →
      (l.foldl (fuzzyStep words) b).getD i "" = "VOLUME" ∧
        (l.foldl (fuzzyStep words) b).getD (i + 1) "" = "VOLUME" := by
  intro l
  induction l with
  | nil => intro b i hmem; simp at hmem
  | cons a rest ih =>
    intro b i hmem hcond hib
    rw [List.foldl_cons]
    by_cases hai : a = i
    · subst hai
      have hset : (fuzzyStep words b a).getD a "" = "VOLUME" ∧
          (fuzzyStep words b a).getD (a + 1) "" = "VOLUME" := by
        rw [fuzzyStep, if_pos hcond]
        constructor
        · rw [List.getD_eq_getElem?_getD, List.getElem?_set, if_neg (by omega),
            List.getElem?_set, if_pos rfl, if_pos (by omega)]
          rfl
        · rw [List.getD_eq_getElem?_getD, List.getElem?_set, if_pos rfl,
            if_pos (by simpa using hib)]
          rfl
      exact ⟨fuzzyFold_keeps_volume words rest _ a hset.1,
        fuzzyFold_keeps_volume words rest _ (a + 1) hset.2⟩
    · have hmem2 : i ∈ rest := by
        rcases List.mem_cons.mp hmem with h | h
        · exact absurd h.symm hai
        · exact h
      exact ih _ i hmem2 hcond (by rw [fuzzyStep_length]; exact hib)

/-- C8: whenever adjacent words `i` and `i + 1` satisfy the fuzzy adjective
and noun tests (stem match or edit distance at most 1 to the canonical
forms, over the normalized tokens), the fuzzy bigram pass forces both
words' bases to `VOLUME`, for an arbitrary incoming base list — no overlap
check, any existing non-`"O"` base is overwritten. -/
theorem fuzzy_pass_forces_volume (words : List Word) (b : List String) (i : Nat)
    (hlen : b.length = words.length) (hi : i + 1 < words.length)
    (h1 : is_adj_big (norm_for_fuzzy (words.getD i ([], 0, 0)).1) = true)
    (h2 : is_noun_volume (norm_for_fuzzy (words.getD (i + 1) ([], 0, 0)).1) = true) :
    (fuzzyBigramPass words b).getD i "" = "VOLUME" ∧
    (fuzzyBigramPass words b).getD (i + 1) "" = "VOLUME" ∧
    (fuzzyBigramPass words b).length = b.length := by
  have hmem : i ∈ List.range (words.length - 1) := List.mem_range.mpr (by omega)
  have h := fuzzyFold_hits words (List.range (words.length - 1)) b i hmem
    (by rw [h1, h2]; rfl) (by omega)
  exact ⟨h.1, h.2, fuzzyFold_length words _ b⟩

/-- Witness for C8: the bigram `"большой обьем"` (second word misspelled at
edit distance 1) with word 0 already labeled `BRAND` ends up `VOLUME` on
both words. -/
theorem fuzzy_pass_forces_volume_witness :
    (fuzzyBigramPass [("большой".toList, 0, 7), ("обьем".toList, 8, 13)]
      ["BRAND", "O"]).getD 0 "" = "VOLUME" :=
  (fuzzy_pass_forces_volume [("большой".toList, 0, 7), ("обьем".toList, 8, 13)]
    ["BRAND", "O"] 0 (by decide) (by decide) (by decide) (by decide)).1

theorem runWorker_getD (f : List α → Except E (List β)) :
    ∀ (bs : List (List (Req α E β))) (j : Nat), j < bs.length →
      (runWorker f bs).getD j [] = processBatch f (bs.getD j []) := by
  intro bs
  induction bs with
  | nil => intro j hj; simp at hj
  | cons b rest ih =>
    intro j hj
    cases j with
    | zero => rfl
    | succ k =>
      have hk : k < rest.length := by simpa using hj
      simpa [runWorker] using ih k hk

theorem runWorker_length (f : List α → Except E (List β)) :
    ∀ (bs : List (List (Req α E β))), (runWorker f bs).length = bs.length := by
  intro bs
  induction bs with
  | nil => rfl
  | cons b rest ih => simp [runWorker, ih]

/-- C5: when the labeling call for a dispatched batch raises, every request
of that batch whose future is still pending is failed with the one shared
labeler error, no request is resolved by that batch, and the worker loop
stays alive: every batch, this one included, is processed exactly as the
per-batch function prescribes, independently of the others. -/
theorem labeler_failure_isolation (f : List α → Except E (List β))
    (batches : List (List (Req α E β))) (i : Nat) (e : E)
    (hi : i < batches.length)
    (hf : f ((batches.getD i []).map Req.texts).flatten = .error e) :
    (runWorker f batches).length = batches.length ∧
    (runWorker f batches).getD i [] =
      (batches.getD i []).map
        (fun x => if x.fut.isPending then ⟨x.texts, .failed (.labelerErr e)⟩ else x) ∧
    (∀ j, j < batches.length →
      (runWorker f batches).getD j [] = processBatch f (batches.getD j [])) := by
  refine ⟨runWorker_length f batches, ?_, fun j hj => runWorker_getD f batches j hj⟩
  rw [runWorker_getD f batches i hi]
  simp only [processBatch, hf]

/-- Witness for C5: a concrete always-failing labeler over one batch of two
pending requests; both receive the same shared failure. -/
theorem labeler_failure_isolation_witness :
    (runWorker (fun _ => Except.error 7)
      [[(⟨[1], FutSt.pending⟩ : Req Nat Nat Nat), ⟨[2], FutSt.pending⟩]]).getD 0 [] =
      [⟨[1], FutSt.failed (BatchErr.labelerErr 7)⟩,
        ⟨[2], FutSt.failed (BatchErr.labelerErr 7)⟩] := by
  have h := (labeler_failure_isolation (fun _ => Except.error 7)
    [[(⟨[1], FutSt.pending⟩ : Req Nat Nat Nat), ⟨[2], FutSt.pending⟩]] 0 7
    (by decide) rfl).2.1
  rw [h]
  decide

/-- C4, behavior of the code at the failing input: a successful batch of
three requests whose second future was already cancelled (the caller's
`wait_for` timed out) when the fan-out ran.  The first request receives its
slice, but `set_result` on the cancelled future raises `InvalidStateError`,
which the batch `except` handler spreads to the still-pending third request
— `[30]` is never delivered to it, contradicting the claim that every
other member is still resolved with its correct slice. -/
theorem cancelled_future_poisons_fanout :
    processBatch (fun ts => Except.ok ts)
      [(⟨[10], FutSt.pending⟩ : Req Nat Unit Nat), ⟨[20], FutSt.cancelled⟩,
        ⟨[30], FutSt.pending⟩] =
      [⟨[10], FutSt.resolved [10]⟩, ⟨[20], FutSt.cancelled⟩,
        ⟨[30], FutSt.failed BatchErr.invalidState⟩] ∧
    (FutSt.failed BatchErr.invalidState : FutSt Unit Nat) ≠ FutSt.resolved [30] := by
  exact ⟨by decide, by decide⟩

theorem takeBatchAux_spec (M T : Nat) :
    ∀ (l : List Nat) (last size : Nat),
      (takeBatchAux M T l last size).1 ++ (takeBatchAux M T l last size).2 = l ∧
      (takeBatchAux M T l last size).1.length ≤ M - size ∧
      List.Chain (fun x y => y ≤ x + T) last (takeBatchAux M T l last size).1 ∧
      ((takeBatchAux M T l last size).2 = [] ∨
        M ≤ size + (takeBatchAux M T l last size).1.length ∨
        (last :: (takeBatchAux M T l last size).1).getLastD 0 + T <
          (takeBatchAux M T l last size).2.headD 0) := by
  intro l
  induction l with
  | nil =>
    intro last size
    refine ⟨rfl, Nat.zero_le _, List.Chain.nil, Or.inl rfl⟩
  | cons a rest ih =>
    intro last size
    by_cases hfull : M ≤ size
    · rw [takeBatchAux, if_pos hfull]
      exact ⟨rfl, Nat.zero_le _, List.Chain.nil, Or.inr (Or.inl (by simpa using hfull))⟩
    · by_cases hadm : a ≤ last + T
      · have h := ih a (size + 1)
        rw [takeBatchAux, if_neg hfull, if_pos hadm]
        refine ⟨by simpa using h.1, by have := h.2.1; simp; omega, ?_, ?_⟩
        · exact List.Chain.cons hadm h.2.2.1
        · rcases h.2.2.2 with h' | h' | h'
          · exact Or.inl h'
          · exact Or.inr (Or.inl (by simp; omega))
          · refine Or.inr (Or.inr ?_)
            simpa [List.getLastD_cons] using h'
      · rw [takeBatchAux, if_neg hfull, if_neg hadm]
        exact ⟨rfl, Nat.zero_le _, List.Chain.nil,
          Or.inr (Or.inr (by simpa [List.getLastD_cons] using hadm))⟩

theorem formBatchesAux_head (M T : Nat) :
    ∀ (fuel : Nat) (arr : List Nat) (c : List Nat),
      (formBatchesAux M T fuel arr).head? = some c → c.headD 0 = arr.headD 0 := by
  intro fuel arr c h
  match fuel, arr with
  | fuel, [] => simp [formBatchesAux] at h
  | 0, a :: rest => simp [formBatchesAux] at h
  | fuel + 1, a :: rest =>
    simp only [formBatchesAux, List.head?_cons, Option.some.injEq] at h
    rw [← h]
    simp

theorem formBatchesAux_spec (M T : Nat) (hM : 1 ≤ M) :
    ∀ (fuel : Nat) (arr : List Nat), arr.length ≤ fuel →
      (formBatchesAux M T fuel arr).flatten = arr ∧
      (∀ b ∈ formBatchesAux M T fuel arr, b ≠ [] ∧ b.length ≤ M ∧
        List.Chain' (fun x y => y ≤ x + T) b) ∧
      List.Chain' (fun b c => b.length = M ∨ b.getLastD 0 + T < c.headD 0)
        (formBatchesAux M T fuel arr) := by
  intro fuel
  induction fuel with
  | zero =>
    intro arr h
    have : arr = [] := List.length_eq_zero.mp (Nat.le_zero.mp h)
    subst this
    exact ⟨rfl, by intro b hb; simp [formBatchesAux] at hb, by simp [formBatchesAux]⟩
  | succ n ih =>
    intro arr h
    cases arr with
    | nil => exact ⟨rfl, by intro b hb; simp [formBatchesAux] at hb, by simp [formBatchesAux]⟩
    | cons a rest =>
      have hspec := takeBatchAux_spec M T rest a 1
      have hr2 : (takeBatchAux M T rest a 1).2.length ≤ n := by
        have h1 := takeBatchAux_rest_le M T rest a 1
        have h2 : rest.length ≤ n := by simpa using h
        omega
      have hih := ih (takeBatchAux M T rest a 1).2 hr2
      rw [formBatchesAux]
      refine ⟨?_, ?_, ?_⟩
      · simp only [List.flatten_cons, hih.1, List.cons_append]
        rw [hspec.1]
      · intro b hb
        rcases List.mem_cons.mp hb with hb | hb
        · subst hb
          refine ⟨by simp, by have := hspec.2.1; simp; omega, ?_⟩
          exact hspec.2.2.1
        · exact hih.2.1 b hb
      · apply List.chain'_cons'.mpr
        refine ⟨?_, hih.2.2⟩
        intro c hc
        have hc' : (formBatchesAux M T n (takeBatchAux M T rest a 1).2).head? = some c :=
          Option.mem_def.mp hc
        rcases hspec.2.2.2 with h' | h' | h'
        · rw [h'] at hc'
          cases n <;> simp [formBatchesAux] at hc'
        · left
          have h1 := hspec.2.1
          simp
          omega
        · right
          have hch : c.headD 0 = (takeBatchAux M T rest a 1).2.headD 0 :=
            formBatchesAux_head M T n _ c hc'
          rw [hch]
          exact h'

/-- C3 (amended): a batch is closed and dispatched when its size reaches
the configured maximum (then at the instant of the last admission, with no
wait) or when one timeout interval elapses with no new arrival since the
most recent admission — `asyncio.wait_for` restarts the timeout at every
admission, so an undersized batch stays open at most one timeout past its
*last* admitted request, while consecutive admissions are always within one
timeout of each other; all arrivals are batched, in order, with no batch
exceeding the maximum, and a following batch only opens after a full batch
or an expired gap. -/
theorem batch_close_per_admission_timeout (M T : Nat) (arr : List Nat) (hM : 1 ≤ M) :
    (formBatches M T arr).flatten = arr ∧
    (∀ b ∈ formBatches M T arr, b ≠ [] ∧ b.length ≤ M ∧
      List.Chain' (fun x y => y ≤ x + T) b ∧
      closeTime M T b ≤ b.getLastD 0 + T ∧
      (b.length = M → closeTime M T b = b.getLastD 0)) ∧
    List.Chain' (fun b c => b.length = M ∨ b.getLastD 0 + T < c.headD 0)
      (formBatches M T arr) := by
  have h := formBatchesAux_spec M T hM arr.length arr (le_refl _)
  refine ⟨h.1, ?_, h.2.2⟩
  intro b hb
  have h2 := h.2.1 b hb
  refine ⟨h2.1, h2.2.1, h2.2.2, ?_, ?_⟩
  · rw [closeTime]
    split
    · exact Nat.le_add_right _ _
    · exact le_refl _
  · intro hbM
    rw [closeTime, if_pos (by omega)]

/-- Witness for C3's amended statement at a concrete trace: max size 2,
timeout 5, arrivals 0, 3, 20 form the batches `[0, 3]` (full) and `[20]`. -/
theorem batch_close_per_admission_timeout_witness :
    (formBatches 2 5 [0, 3, 20]).flatten = [0, 3, 20] ∧ formBatches 2 5 [0, 3, 20] =
      [[0, 3], [20]] :=
  ⟨(batch_close_per_admission_timeout 2 5 [0, 3, 20] (by decide)).1, by decide⟩

/-- C3 counterexample: with maximum size 4 and timeout 10, arrivals at
instants 0, 9 and 18 are admitted into a single batch of size 3 — each gap
is within one fresh timeout of the previous admission — and that batch
closes only at 28 = 18 + 10, after more than one timeout interval past its
first request at instant 0. -/
theorem batch_timeout_restarts_cex :
    formBatches 4 10 [0, 9, 18] = [[0, 9, 18]] ∧
    ([0, 9, 18] : List Nat).length < 4 ∧
    closeTime 4 10 [0, 9, 18] = 28 ∧
    ([0, 9, 18] : List Nat).headD 0 + 10 < 28 := by
  exact ⟨by decide, by decide, by decide, by decide⟩

theorem spanKeyLT_iff (a b : Span) :
    spanKeyLT a b = true ↔ (a.1 < b.1 ∨ (a.1 = b.1 ∧ a.2.1 < b.2.1)) := by
  simp [spanKeyLT]

theorem spanKeyLT_false_iff (a b : Span) :
    spanKeyLT a b = false ↔ ¬ (a.1 < b.1 ∨ (a.1 = b.1 ∧ a.2.1 < b.2.1)) := by
  rw [Bool.eq_false_iff]
  exact not_congr (spanKeyLT_iff a b)

theorem spanKeyLT_asymm {a b : Span} (h : spanKeyLT a b = true) : spanKeyLT b a = false := by
  rw [spanKeyLT_false_iff]
  have h1 := (spanKeyLT_iff a b).mp h
  omega

theorem spanKeyLT_le_trans {a b c : Span} (hab : spanKeyLT b a = false)
    (hbc : spanKeyLT c b = false) : spanKeyLT c a = false := by
  rw [spanKeyLT_false_iff] at hab hbc ⊢
  omega

theorem insertSpan_perm (x : Span) : ∀ (l : List Span), List.Perm (insertSpan x l) (x :: l) := by
  intro l
  induction l with
  | nil => exact List.Perm.refl _
  | cons y l ih =>
    rw [insertSpan]
    split
    · exact List.Perm.refl _
    · exact List.Perm.trans (List.Perm.cons y ih) (List.Perm.swap x y l)

theorem sortSpans_perm (l : List Span) : List.Perm (sortSpans l) l := by
  have key : ∀ (l acc : List Span),
      List.Perm (l.foldl (fun acc x => insertSpan x acc) acc) (acc ++ l) := by
    intro l
    induction l with
    | nil => intro acc; simp
    | cons x rest ih =>
      intro acc
      rw [List.foldl_cons]
      refine (ih (insertSpan x acc)).trans ?_
      refine List.Perm.trans (List.Perm.append_right rest (insertSpan_perm x acc)) ?_
      exact List.perm_middle.symm
  simpa using key l []

theorem mem_sortSpans {x : Span} {l : List Span} : x ∈ sortSpans l ↔ x ∈ l :=
  (sortSpans_perm l).mem_iff

theorem insertSpan_sorted (x : Span) : ∀ (l : List Span),
    List.Pairwise (fun a b => spanKeyLT b a = false) l →
    List.Pairwise (fun a b => spanKeyLT b a = false) (insertSpan x l) := by
  intro l
  induction l with
  | nil => intro _; simp [insertSpan]
  | cons y l ih =>
    intro hp
    have hy := (List.pairwise_cons.mp hp).1
    have hl := (List.pairwise_cons.mp hp).2
    rw [insertSpan]
    by_cases hlt : spanKeyLT x y = true
    · rw [if_pos hlt]
      apply List.pairwise_cons.mpr
      refine ⟨?_, hp⟩
      intro z hz
      rcases List.mem_cons.mp hz with rfl | hz
      · exact spanKeyLT_asymm hlt
      · exact spanKeyLT_le_trans (spanKeyLT_asymm hlt) (hy z hz)
    · rw [if_neg hlt]
      apply List.pairwise_cons.mpr
      constructor
      · intro z hz
        have hmem : z = x ∨ z ∈ l :=
          List.mem_cons.mp ((insertSpan_perm x l).mem_iff.mp hz)
        rcases hmem with rfl | hz2
        · exact Bool.eq_false_iff.mpr hlt
        · exact hy z hz2
      · exact ih hl

theorem sortSpans_sorted (l : List Span) :
    List.Pairwise (fun a b => spanKeyLT b a = false) (sortSpans l) := by
  have key : ∀ (l acc : List Span),
      List.Pairwise (fun a b => spanKeyLT b a = false) acc →
      List.Pairwise (fun a b => spanKeyLT b a = false)
        (l.foldl (fun acc x => insertSpan x acc) acc) := by
    intro l
    induction l with
    | nil => intro acc h; exact h
    | cons x rest ih => intro acc h; exact ih _ (insertSpan_sorted x acc h)
  exact key l [] List.Pairwise.nil

/-- Condition under which a token span is the one projected onto word `wi`:
it is not an `"O"` token and the first word containing its start is `wi`. -/
def tokCovers (words : List Word) (wi : Nat) (sp : Span) : Bool :=
  decide (sp.2.2 ≠ "O") && decide (findWordCovering words sp.1 = some wi)

theorem assignTok_length (words : List Word) (b : List String) (sp : Span) :
    (assignTok words b sp).length = b.length := by
  by_cases hO : sp.2.2 = "O"
  · rw [assignTok, if_pos hO]
  · rw [assignTok, if_neg hO]
    cases h : findWordCovering words sp.1 with
    | none => rfl
    | some wi =>
      simp only
      split <;> simp

theorem assignTok_getD_other (words : List Word) (b : List String) (sp : Span) (wi : Nat)
    (h : tokCovers words wi sp = false) :
    (assignTok words b sp).getD wi "" = b.getD wi "" := by
  by_cases hO : sp.2.2 = "O"
  · rw [assignTok, if_pos hO]
  · rw [assignTok, if_neg hO]
    cases hf : findWordCovering words sp.1 with
    | none => rfl
    | some wj =>
      have hne : wj ≠ wi := by
        intro he
        rw [tokCovers, hf, he] at h
        simp [hO] at h
      simp only
      split
      · rw [List.getD_eq_getElem?_getD, List.getElem?_set, if_neg hne,
          ← List.getD_eq_getElem?_getD]
      · rfl

theorem assignFold_getD (words : List Word) :
    ∀ (l : List Span) (b : List String) (wi : Nat),
      (∀ sp ∈ l, sp.2.2 ≠ "O" → stripLabel sp.2.2 ≠ "O") →
      wi < b.length →
      (l.foldl (assignTok words) b).getD wi "" =
        (if b.getD wi "" = "O" then
          (match l.find? (tokCovers words wi) with
           | some sp => stripLabel sp.2.2
           | none => "O")
         else b.getD wi "") := by
  intro l
  induction l with
  | nil =>
    intro b wi _ _
    simp only [List.foldl_nil, List.find?_nil]
    split
    · rename_i h
      exact h
    · rfl
  | cons sp rest ih =>
    intro b wi hlab hwi
    rw [List.foldl_cons]
    have hlab2 : ∀ q ∈ rest, q.2.2 ≠ "O" → stripLabel q.2.2 ≠ "O" :=
      fun q hq => hlab q (List.mem_cons_of_mem sp hq)
    have hwi2 : wi < (assignTok words b sp).length := by rw [assignTok_length]; exact hwi
    by_cases hcov : tokCovers words wi sp = true
    · have hO : sp.2.2 ≠ "O" := by
        rw [tokCovers] at hcov
        simp at hcov
        exact hcov.1
      have hf : findWordCovering words sp.1 = some wi := by
        rw [tokCovers] at hcov
        simp at hcov
        exact hcov.2
      rw [List.find?_cons_of_pos _ hcov]
      by_cases hb : b.getD wi "" = "O"
      · have hb' : assignTok words b sp = b.set wi (stripLabel sp.2.2) := by
          rw [assignTok, if_neg hO, hf]
          simp only
          rw [if_pos hb]
        have hset : (assignTok words b sp).getD wi "" = stripLabel sp.2.2 := by
          rw [hb', List.getD_eq_getElem?_getD, List.getElem?_set, if_pos rfl, if_pos hwi]
          rfl
        have hne : (assignTok words b sp).getD wi "" ≠ "O" := by
          rw [hset]
          exact hlab sp (List.mem_cons_self sp rest) hO
        rw [ih (assignTok words b sp) wi hlab2 hwi2, if_neg hne, hset, if_pos hb]
      · have hb' : assignTok words b sp = b := by
          rw [assignTok, if_neg hO, hf]
          simp only
          rw [if_neg hb]
        rw [ih (assignTok words b sp) wi hlab2 hwi2, hb', if_neg hb, if_neg hb]
    · have hcovf : tokCovers words wi sp = false := Bool.eq_false_iff.mpr hcov
      have heq : (assignTok words b sp).getD wi "" = b.getD wi "" :=
        assignTok_getD_other words b sp wi hcovf
      rw [List.find?_cons_of_neg _ (by rw [hcovf]; exact Bool.false_ne_true),
        ih (assignTok words b sp) wi hlab2 hwi2, heq]

/-- C7: token-to-word projection starts from all-`"O"` word bases and folds
the token spans in ascending `(start, end)` order (the sorted list is a
sorted permutation of the input); each word ends up with the stripped type
of the *first* non-`"O"` token in that order whose start lies in the word —
so the first non-`"O"` token wins and later tokens touching an assigned
word are ignored — and a token whose start lies in no word leaves the base
list entirely unchanged, never raising an error.  (The hypothesis rules out
degenerate labels such as `"B-O"` whose stripped type is `"O"`.) -/
theorem token_projection_spec (words : List Word) (token_spans : List Span)
    (hlab : ∀ sp ∈ token_spans, sp.2.2 ≠ "O" → stripLabel sp.2.2 ≠ "O") :
    (projectTokenSpans words token_spans).length = words.length ∧
    (∀ wi, wi < words.length →
      (projectTokenSpans words token_spans).getD wi "" =
        (match (sortSpans token_spans).find? (tokCovers words wi) with
         | some sp => stripLabel sp.2.2
         | none => "O")) ∧
    (∀ (b : List String) (sp : Span), findWordCovering words sp.1 = none →
      assignTok words b sp = b) ∧
    List.Pairwise (fun a b => spanKeyLT b a = false) (sortSpans token_spans) ∧
    List.Perm (sortSpans token_spans) token_spans := by
  have hlen : ∀ (l : List Span) (b : List String),
      (l.foldl (assignTok words) b).length = b.length := by
    intro l
    induction l with
    | nil => intro b; rfl
    | cons sp rest ih => intro b; rw [List.foldl_cons, ih, assignTok_length]
  refine ⟨?_, ?_, ?_, sortSpans_sorted token_spans, sortSpans_perm token_spans⟩
  · rw [projectTokenSpans, hlen, List.length_replicate]
  · intro wi hwi
    have hlab2 : ∀ sp ∈ sortSpans token_spans, sp.2.2 ≠ "O" → stripLabel sp.2.2 ≠ "O" :=
      fun sp hsp => hlab sp (mem_sortSpans.mp hsp)
    have hrep : (List.replicate words.length "O").getD wi "" = "O" := by
      rw [List.getD_eq_getElem?_getD, List.getElem?_replicate_of_lt hwi]
      rfl
    rw [projectTokenSpans,
      assignFold_getD words (sortSpans token_spans) (List.replicate words.length "O") wi hlab2
        (by rw [List.length_replicate]; exact hwi),
      if_pos hrep]
  · intro b sp hf
    by_cases hO : sp.2.2 = "O"
    · rw [assignTok, if_pos hO]
    · rw [assignTok, if_neg hO, hf]

/-- Witness for C7: two words and three tokens; the sorted order is
`(0,1,"I-VOLUME")`, `(0,2,"B-BRAND")`, `(3,5,"B-TYPE")`, so the first
non-`"O"` token covering word 0 assigns `VOLUME` and the later `B-BRAND`
token on the same word is ignored. -/
theorem token_projection_spec_witness :
    (projectTokenSpans [("аб".toList, 0, 2), ("вг".toList, 3, 5)]
      [(3, 5, "B-TYPE"), (0, 2, "B-BRAND"), (0, 1, "I-VOLUME")]).getD 0 "" = "VOLUME" := by
  have h := (token_projection_spec [("аб".toList, 0, 2), ("вг".toList, 3, 5)]
    [(3, 5, "B-TYPE"), (0, 2, "B-BRAND"), (0, 1, "I-VOLUME")] (by decide)).2.1 0 (by decide)
  rw [h]
  decide

theorem projectTokenSpans_length (words : List Word) (token_spans : List Span) :
    (projectTokenSpans words token_spans).length = words.length := by
  have key : ∀ (l : List Span) (b : List String),
      (l.foldl (assignTok words) b).length = b.length := by
    intro l
    induction l with
    | nil => intro b; rfl
    | cons sp rest ih => intro b; rw [List.foldl_cons, ih, assignTok_length]
  rw [projectTokenSpans, key, List.length_replicate]

theorem prepStep_length (n : Nat) (b : List String) (i : Nat) :
    (prepStep n b i).length = b.length := by
  rw [prepStep]
  have key : ∀ (l : List Nat) (b2 : List String),
      (l.foldl (fun b k => if i + k + 1 < b.length then b.set (i + k + 1) "O" else b)
        b2).length = b2.length := by
    intro l
    induction l with
    | nil => intro b2; rfl
    | cons a rest ih =>
      intro b2
      rw [List.foldl_cons, ih]
      split <;> simp
  rw [key]
  simp

theorem prepAux_length (n : Nat) : ∀ (ws : List Word) (k : Nat) (b : List String),
    (prepAux n k ws b).length = b.length := by
  intro ws
  induction ws with
  | nil => intro k b; rfl
  | cons w rest ih =>
    intro k b
    rw [prepAux, ih]
    split
    · rw [prepStep_length]
    · rfl

theorem startAllPass_length (words : List Word) (b : List String)
    (h : b.length = words.length) : (startAllPass words b).length = words.length := by
  cases words with
  | nil => simpa using h
  | cons w ws =>
    rw [startAllPass]
    split
    · simp
    · exact h

theorem apply_word_level_rules_length (volM percM : List (Nat × Nat)) (words : List Word)
    (tags : List String) (n : Nat) (h : tags.length = words.length) :
    (apply_word_level_rules volM percM words tags n).length = words.length := by
  have h1 : (tags.map strip_tag).length = words.length := by simpa using h
  have h2 : (regexInjectPass volM percM words (tags.map strip_tag)).length = words.length := by
    rw [regexInjectPass_length]
    exact h1
  have h3 : (fuzzyBigramPass words
      (regexInjectPass volM percM words (tags.map strip_tag))).length = words.length := by
    rw [fuzzyBigramPass, fuzzyFold_length]
    exact h2
  have h4 : (startAllPass words (fuzzyBigramPass words
      (regexInjectPass volM percM words (tags.map strip_tag)))).length = words.length :=
    startAllPass_length words _ h3
  rw [apply_word_level_rules, recompute_word_tags, recomputeAux_length, prepNullifyPass,
    prepAux_length]
  exact h4

theorem splitAux_invariant : ∀ (t : Txt) (pos : Nat) (st : Option (Nat × Txt)),
    (∀ q : Nat × Txt, st = some q → q.1 + q.2.length = pos ∧ q.2 ≠ []) →
    (∀ w ∈ splitAux pos st t,
      (match st with | none => pos | some q => q.1) ≤ w.2.1 ∧ w.2.1 < w.2.2) ∧
    List.Chain' (fun a b => a.2.2 ≤ b.2.1) (splitAux pos st t) := by
  intro t
  induction t with
  | nil =>
    intro pos st hst
    cases st with
    | none =>
      constructor
      · intro w hw
        simp [splitAux] at hw
      · simp [splitAux]
    | some q =>
      have hq := hst q rfl
      have hlen : 1 ≤ q.2.length := List.length_pos.mpr hq.2
      constructor
      · intro w hw
        simp only [splitAux, List.mem_singleton] at hw
        subst hw
        refine ⟨le_refl _, ?_⟩
        simp only
        omega
      · simp [splitAux]
  | cons c cs ih =>
    intro pos st hst
    cases st with
    | none =>
      by_cases hc : c.isWhitespace
      · have hrec := ih (pos + 1) none (fun q hq => by simp at hq)
        constructor
        · intro w hw
          simp only [splitAux, if_pos hc] at hw
          have h := hrec.1 w hw
          exact ⟨by have := h.1; simp only at this ⊢; omega, h.2⟩
        · simp only [splitAux, if_pos hc]
          exact hrec.2
      · have hrec := ih (pos + 1) (some (pos, [c])) (fun q hq => by
          have hq2 := Option.some.inj hq
          subst hq2
          exact ⟨by simp, by simp⟩)
        constructor
        · intro w hw
          simp only [splitAux, if_neg hc] at hw
          have h := hrec.1 w hw
          exact ⟨h.1, h.2⟩
        · simp only [splitAux, if_neg hc]
          exact hrec.2
    | some q =>
      have hq := hst q rfl
      have hlen : 1 ≤ q.2.length := List.length_pos.mpr hq.2
      by_cases hc : c.isWhitespace
      · have hrec := ih (pos + 1) none (fun r hr => by simp at hr)
        constructor
        · intro w hw
          simp only [splitAux, if_pos hc, List.mem_cons] at hw
          rcases hw with rfl | hw
          · exact ⟨le_refl _, by simp only; omega⟩
          · have h := hrec.1 w hw
            have h1 : pos + 1 ≤ w.2.1 := h.1
            exact ⟨by simp only; omega, h.2⟩
        · simp only [splitAux, if_pos hc]
          apply List.chain'_cons'.mpr
          constructor
          · intro b hb
            have hmem : b ∈ splitAux (pos + 1) none cs := List.mem_of_mem_head? hb
            have h1 : pos + 1 ≤ b.2.1 := (hrec.1 b hmem).1
            simp only
            omega
          · exact hrec.2
      · have hrec := ih (pos + 1) (some (q.1, c :: q.2)) (fun r hr => by
          have hr2 := Option.some.inj hr
          subst hr2
          refine ⟨?_, by simp⟩
          simp only [List.length_cons]
          omega)
        constructor
        · intro w hw
          simp only [splitAux, if_neg hc] at hw
          have h := hrec.1 w hw
          exact ⟨h.1, h.2⟩
        · simp only [splitAux, if_neg hc]
          exact hrec.2

theorem split_words_ok (t : Txt) :
    (∀ w ∈ split_words_with_offsets t, w.2.1 < w.2.2) ∧
    List.Chain' (fun a b => a.2.2 ≤ b.2.1) (split_words_with_offsets t) := by
  have h := splitAux_invariant t 0 none (fun q hq => by simp at hq)
  exact ⟨fun w hw => (h.1 w hw).2, h.2⟩

theorem word_bio_to_spans_map_range : ∀ (words : List Word) (tags : List String),
    tags.length = words.length →
    (word_bio_to_spans words tags).map (fun sp => (sp.1, sp.2.1)) =
      words.map (fun w => (w.2.1, w.2.2)) := by
  intro words
  induction words with
  | nil => intro tags h; rfl
  | cons w ws ih =>
    intro tags h
    cases tags with
    | nil => simp at h
    | cons tg ts =>
      simp only [word_bio_to_spans, List.zip_cons_cons, List.map_cons]
      congr 1
      simpa [word_bio_to_spans] using ih ts (by simpa using h)

theorem word_bio_to_spans_getD : ∀ (words : List Word) (tags : List String) (i : Nat),
    i < words.length → i < tags.length →
    (word_bio_to_spans words tags).getD i (0, 0, "") =
      ((words.getD i ([], 0, 0)).2.1, (words.getD i ([], 0, 0)).2.2, tags.getD i "") := by
  intro words
  induction words with
  | nil => intro tags i h; simp at h
  | cons w ws ih =>
    intro tags i hw ht
    cases tags with
    | nil => simp at ht
    | cons tg ts =>
      cases i with
      | zero => rfl
      | succ j =>
        simp only [word_bio_to_spans, List.zip_cons_cons, List.map_cons, List.getD_cons_succ]
        exact ih ts j (by simpa using hw) (by simpa using ht)

theorem word_bio_to_spans_chain : ∀ (words : List Word) (tags : List String),
    List.Chain' (fun a b => a.2.2 ≤ b.2.1) words →
    List.Chain' (fun a b => a.2.1 ≤ b.1) (word_bio_to_spans words tags) := by
  intro words
  induction words with
  | nil => intro tags _; simp [word_bio_to_spans]
  | cons w ws ih =>
    intro tags h
    cases tags with
    | nil => simp [word_bio_to_spans]
    | cons tg ts =>
      cases ws with
      | nil => simp [word_bio_to_spans]
      | cons w2 ws2 =>
        cases ts with
        | nil => simp [word_bio_to_spans]
        | cons t2 ts2 =>
          have hch := List.chain'_cons.mp h
          simp only [word_bio_to_spans, List.zip_cons_cons, List.map_cons]
          apply List.chain'_cons.mpr
          constructor
          · exact hch.1
          · simpa [word_bio_to_spans] using ih (t2 :: ts2) hch.2

theorem word_bio_to_spans_mem (words : List Word) (tags : List String)
    (hb : ∀ w ∈ words, w.2.1 < w.2.2) :
    ∀ sp ∈ word_bio_to_spans words tags, sp.1 < sp.2.1 := by
  intro sp hsp
  rw [word_bio_to_spans] at hsp
  rcases List.mem_map.mp hsp with ⟨p, hp, rfl⟩
  exact hb p.1 (List.of_mem_zip hp).1

/-- The word-first pipeline block of `predict_bio` (`infer.py` lines
102-107) for one text: segment words, project the token spans onto words,
apply the word-level rules, and emit one span per word.  `volM`/`percM`
model the regex match ranges over the text; `n` is the preposition nullify
count (2 in the pipeline). -/
def word_pipeline (t : Txt) (token_spans : List Span) (volM percM : List (Nat × Nat))
    (n : Nat) : List Span :=
  word_bio_to_spans (split_words_with_offsets t)
    (apply_word_level_rules volM percM (split_words_with_offsets t)
      (derive_word_bio_from_token_spans (split_words_with_offsets t) token_spans) n)

/-- C6: for every text and token-span input, the word pipeline conserves
the label count through projection, rule application and BIO recomputation,
and emits exactly one span per word, carrying that word's own offsets and
the word's final tag, in word order; the spans' ranges are exactly the word
ranges, consecutive spans do not overlap, and every span is nonempty. -/
theorem word_pipeline_partition (t : Txt) (token_spans : List Span)
    (volM percM : List (Nat × Nat)) (n : Nat) :
    (derive_word_bio_from_token_spans (split_words_with_offsets t) token_spans).length =
      (split_words_with_offsets t).length ∧
    (apply_word_level_rules volM percM (split_words_with_offsets t)
      (derive_word_bio_from_token_spans (split_words_with_offsets t) token_spans) n).length =
      (split_words_with_offsets t).length ∧
    (word_pipeline t token_spans volM percM n).length = (split_words_with_offsets t).length ∧
    (word_pipeline t token_spans volM percM n).map (fun sp => (sp.1, sp.2.1)) =
      (split_words_with_offsets t).map (fun w => (w.2.1, w.2.2)) ∧
    (∀ i, i < (split_words_with_offsets t).length →
      (word_pipeline t token_spans volM percM n).getD i (0, 0, "") =
        (((split_words_with_offsets t).getD i ([], 0, 0)).2.1,
         ((split_words_with_offsets t).getD i ([], 0, 0)).2.2,
         (apply_word_level_rules volM percM (split_words_with_offsets t)
           (derive_word_bio_from_token_spans (split_words_with_offsets t) token_spans)
           n).getD i "")) ∧
    List.Chain' (fun a b => a.2.1 ≤ b.1) (word_pipeline t token_spans volM percM n) ∧
    (∀ sp ∈ word_pipeline t token_spans volM percM n, sp.1 < sp.2.1) := by
  have hd : (derive_word_bio_from_token_spans (split_words_with_offsets t)
      token_spans).length = (split_words_with_offsets t).length := by
    rw [derive_word_bio_from_token_spans, recompute_word_tags, recomputeAux_length,
      projectTokenSpans_length]
  have ha : (apply_word_level_rules volM percM (split_words_with_offsets t)
      (derive_word_bio_from_token_spans (split_words_with_offsets t) token_spans) n).length =
      (split_words_with_offsets t).length :=
    apply_word_level_rules_length volM percM _ _ n hd
  have hwords := split_words_ok t
  refine ⟨hd, ha, ?_, ?_, ?_, ?_, ?_⟩
  · rw [word_pipeline, word_bio_to_spans]
    simp [ha]
  · exact word_bio_to_spans_map_range _ _ ha
  · intro i hi
    exact word_bio_to_spans_getD _ _ i hi (by rw [ha]; exact hi)
  · exact word_bio_to_spans_chain _ _ hwords.2
  · exact word_bio_to_spans_mem _ _ hwords.1

/-- Witness for C6 at the concrete text `"в пакете"` with one token span. -/
theorem word_pipeline_partition_witness :
    (word_pipeline "в пакете".toList [(2, 4, "B-TYPE")] [] [] 2).map
        (fun sp => (sp.1, sp.2.1)) =
      (split_words_with_offsets "в пакете".toList).map (fun w => (w.2.1, w.2.2)) ∧
    (word_pipeline "в пакете".toList [(2, 4, "B-TYPE")] [] [] 2).map
        (fun sp => (sp.1, sp.2.1)) = [(0, 1), (2, 8)] :=
  ⟨(word_pipeline_partition "в пакете".toList [(2, 4, "B-TYPE")] [] [] 2).2.2.2.1,
    by decide⟩

theorem wordSpanIdxs_disjoint (ewi : List (Option Nat)) :
    ∀ (a b : Nat), a ≠ b → ∀ x ∈ wordSpanIdxs ewi a, x ∉ wordSpanIdxs ewi b := by
  intro a b hab x hxa hxb
  have ha := (List.mem_filter.mp hxa).2
  have hb := (List.mem_filter.mp hxb).2
  simp only [decide_eq_true_eq] at ha hb
  rw [ha] at hb
  exact hab (Option.some.inj hb)

theorem sortedEntityWordIdxs_nodup (words : List Word) (ewi : List (Option Nat)) :
    (sortedEntityWordIdxs words ewi).Nodup :=
  (List.nodup_range _).filter _

theorem dropWindow_eq (wsi : Nat → List Nat) (pidx n : Nat)
    (hdisj : ∀ a b : Nat, a ≠ b → ∀ x ∈ wsi a, x ∉ wsi b) :
    ∀ (l : List Nat), l.Nodup → ∀ (dropped : Nat) (drop : List Nat),
      dropWindow wsi pidx n l dropped drop =
        drop ++ (((l.filter (fun w => decide (pidx < w) &&
            !((wsi w).any (fun i => decide (i ∈ drop))))).take
          (max (n - dropped) 1)).map wsi).flatten := by
  intro l
  induction l with
  | nil => intro _ dropped drop; simp [dropWindow]
  | cons w rest ih =>
    intro hnd dropped drop
    have hnd2 : rest.Nodup := (List.nodup_cons.mp hnd).2
    have hwnotin : w ∉ rest := (List.nodup_cons.mp hnd).1
    by_cases hple : w ≤ pidx
    · have hpred : (decide (pidx < w) && !((wsi w).any (fun i => decide (i ∈ drop)))) =
          false := by
        have h1 : decide (pidx < w) = false := by simp; omega
        rw [h1, Bool.false_and]
      simp only [dropWindow]
      rw [if_pos hple, ih hnd2 dropped drop, List.filter_cons, hpred,
        if_neg Bool.false_ne_true]
    · by_cases hdone : ((wsi w).any (fun i => decide (i ∈ drop))) = true
      · have hpred : (decide (pidx < w) && !((wsi w).any (fun i => decide (i ∈ drop)))) =
            false := by
          rw [hdone]
          simp
        simp only [dropWindow]
        rw [if_neg hple, if_pos hdone, ih hnd2 dropped drop, List.filter_cons, hpred,
          if_neg Bool.false_ne_true]
      · have hpred : (decide (pidx < w) && !((wsi w).any (fun i => decide (i ∈ drop)))) =
            true := by
          rw [Bool.and_eq_true]
          refine ⟨by simp; omega, ?_⟩
          rw [Bool.not_eq_true']
          exact Bool.eq_false_iff.mpr hdone
        simp only [dropWindow]
        rw [if_neg hple, if_neg hdone, List.filter_cons, hpred, if_pos rfl]
        by_cases hstop : n ≤ dropped + 1
        · rw [if_pos hstop]
          have hmax : max (n - dropped) 1 = 1 := by omega
          rw [hmax]
          simp
        · rw [if_neg hstop, ih hnd2 (dropped + 1) (drop ++ wsi w)]
          have hfeq : rest.filter (fun v => decide (pidx < v) &&
              !((wsi v).any (fun i => decide (i ∈ drop ++ wsi w)))) =
            rest.filter (fun v => decide (pidx < v) &&
              !((wsi v).any (fun i => decide (i ∈ drop)))) := by
            apply List.filter_congr
            intro v hv
            have hvw : v ≠ w := fun he => hwnotin (he ▸ hv)
            have hany : ((wsi v).any (fun i => decide (i ∈ drop ++ wsi w))) =
                ((wsi v).any (fun i => decide (i ∈ drop))) := by
              rw [Bool.eq_iff_iff]
              simp only [List.any_eq_true, decide_eq_true_eq, List.mem_append]
              constructor
              · rintro ⟨x, hx, hxd | hxw⟩
                · exact ⟨x, hx, hxd⟩
                · exact absurd hxw (hdisj v w hvw x hx)
              · rintro ⟨x, hx, hxd⟩
                exact ⟨x, hx, Or.inl hxd⟩
            rw [hany]
          rw [hfeq]
          have e2 : max (n - (dropped + 1)) 1 = n - dropped - 1 := by omega
          have e1 : max (n - dropped) 1 = (n - dropped - 1) + 1 := by omega
          rw [e2, e1, List.take_succ_cons]
          simp

theorem processPrep_eq (wsi : Nat → List Nat) (sortedEW : List Nat) (n : Nat)
    (hn : 1 ≤ n) (hdisj : ∀ a b : Nat, a ≠ b → ∀ x ∈ wsi a, x ∉ wsi b)
    (hnd : sortedEW.Nodup) (drop : List Nat) (pidx : Nat) :
    processPrep wsi sortedEW n drop pidx =
      drop ++ wsi pidx ++
        (((sortedEW.filter (fun w => decide (pidx < w) &&
            !((wsi w).any (fun i => decide (i ∈ drop ++ wsi pidx))))).take n).map
          wsi).flatten := by
  rw [processPrep, dropWindow_eq wsi pidx n hdisj sortedEW hnd 0 (drop ++ wsi pidx)]
  have hmax : max (n - 0) 1 = n := by omega
  rw [hmax, List.append_assoc]

theorem dropWindow_mem (wsi : Nat → List Nat) (pidx n : Nat) :
    ∀ (l : List Nat) (dropped : Nat) (drop : List Nat) (x : Nat), x ∈ drop →
      x ∈ dropWindow wsi pidx n l dropped drop := by
  intro l
  induction l with
  | nil => intro dropped drop x hx; exact hx
  | cons w rest ih =>
    intro dropped drop x hx
    simp only [dropWindow]
    split
    · exact ih dropped drop x hx
    · split
      · exact ih dropped drop x hx
      · split
        · exact List.mem_append_left _ hx
        · exact ih (dropped + 1) (drop ++ wsi w) x (List.mem_append_left _ hx)

theorem processPrep_mem (wsi : Nat → List Nat) (sortedEW : List Nat) (n : Nat)
    (drop : List Nat) (pidx : Nat) (x : Nat) (hx : x ∈ drop ∨ x ∈ wsi pidx) :
    x ∈ processPrep wsi sortedEW n drop pidx := by
  rw [processPrep]
  apply dropWindow_mem
  rcases hx with h | h
  · exact List.mem_append_left _ h
  · exact List.mem_append_right _ h

theorem foldl_processPrep_mem (wsi : Nat → List Nat) (sortedEW : List Nat) (n : Nat) :
    ∀ (l : List Nat) (acc : List Nat) (x : Nat),
      (x ∈ acc ∨ ∃ p ∈ l, x ∈ wsi p) →
      x ∈ l.foldl (processPrep wsi sortedEW n) acc := by
  intro l
  induction l with
  | nil =>
    intro acc x hx
    rcases hx with h | ⟨p, hp, _⟩
    · exact h
    · simp at hp
  | cons q rest ih =>
    intro acc x hx
    rw [List.foldl_cons]
    rcases hx with h | ⟨p, hp, hxp⟩
    · exact ih _ x (Or.inl (processPrep_mem wsi sortedEW n acc q x (Or.inl h)))
    · rcases List.mem_cons.mp hp with rfl | hp2
      · exact ih _ x (Or.inl (processPrep_mem wsi sortedEW n acc p x (Or.inr hxp)))
      · exact ih _ x (Or.inr ⟨p, hp2, hxp⟩)

theorem addWordO_sub (words : List Word) (acc : List Span) (widx : Nat) :
    ∀ sp ∈ acc, sp ∈ addWordO words acc widx := by
  intro sp hsp
  rw [addWordO]
  cases words.get? widx with
  | none => exact hsp
  | some w =>
    simp only
    split
    · exact hsp
    · exact List.mem_append_left _ hsp

theorem addPrepO_sub (words : List Word) (n : Nat) (acc : List Span) (pidx : Nat) :
    ∀ sp ∈ acc, sp ∈ addPrepO words n acc pidx := by
  intro sp hsp
  rw [addPrepO]
  split
  · have key : ∀ (l : List Nat) (a : List Span), sp ∈ a →
        sp ∈ l.foldl (fun a k =>
          if pidx + k + 1 < words.length then addWordO words a (pidx + k + 1) else a) a := by
      intro l
      induction l with
      | nil => intro a ha; exact ha
      | cons k rest ih =>
        intro a ha
        rw [List.foldl_cons]
        apply ih
        split
        · exact addWordO_sub words a _ sp ha
        · exact ha
    exact key _ _ (addWordO_sub words acc pidx sp hsp)
  · exact hsp

theorem foldl_addPrepO_sub (words : List Word) (n : Nat) :
    ∀ (l : List Nat) (acc : List Span), ∀ sp ∈ acc,
      sp ∈ l.foldl (addPrepO words n) acc := by
  intro l
  induction l with
  | nil => intro acc sp hsp; exact hsp
  | cons p rest ih =>
    intro acc sp hsp
    rw [List.foldl_cons]
    exact ih _ sp (addPrepO_sub words n acc p sp hsp)

theorem toDrop_foldl_eq (wsi : Nat → List Nat) (sortedEW : List Nat) (n : Nat)
    (hn : 1 ≤ n) (hdisj : ∀ a b : Nat, a ≠ b → ∀ x ∈ wsi a, x ∉ wsi b)
    (hnd : sortedEW.Nodup) :
    ∀ (l : List Nat) (acc : List Nat),
      l.foldl (processPrep wsi sortedEW n) acc =
        l.foldl (fun drop pidx => drop ++ wsi pidx ++
          (((sortedEW.filter (fun w => decide (pidx < w) &&
              !((wsi w).any (fun i => decide (i ∈ drop ++ wsi pidx))))).take n).map
            wsi).flatten) acc := by
  intro l
  induction l with
  | nil => intro acc; rfl
  | cons p rest ih =>
    intro acc
    rw [List.foldl_cons, List.foldl_cons, processPrep_eq wsi sortedEW n hn hdisj hnd, ih]

/-- C10: the preposition-window nullification over token spans.  (a) The
stateful window loop is equivalent to a declarative form: for each
preposition, the spans of its own word are dropped together with the spans
of the first `nullify_count` words — among the span-carrying words only —
that lie after the preposition and none of whose spans were already
dropped; words without spans never consume the window, previously
nullified words are skipped without consuming it, and distance plays no
role, so an arbitrarily far span-carrying word is still dropped when no
nearer one is eligible.  (b) Spans on the preposition's own word are always
dropped.  (c) Every dropped span reappears in the function's output
relabeled `"O"` with its own offsets. -/
theorem prep_window_counts_entity_words (text : Txt) (spans : List Span)
    (preps : List Txt) (n : Nat) (wsi : Nat → List Nat) (sortedEW prepIdxs toDrop : List Nat)
    (hn : 1 ≤ n)
    (hwsi : wsi = wordSpanIdxs (entWordIdx (split_words_with_offsets text) spans))
    (hsew : sortedEW = sortedEntityWordIdxs (split_words_with_offsets text)
      (entWordIdx (split_words_with_offsets text) spans))
    (hprep : prepIdxs = prepWordIdxs (split_words_with_offsets text) preps)
    (hdrop : toDrop = nullifyDropSet text spans preps n) :
    toDrop = prepIdxs.foldl (fun drop pidx =>
        drop ++ wsi pidx ++
          (((sortedEW.filter (fun w => decide (pidx < w) &&
              !((wsi w).any (fun i => decide (i ∈ drop ++ wsi pidx))))).take n).map
            wsi).flatten) [] ∧
    (∀ p ∈ prepIdxs, ∀ ei ∈ wsi p, ei ∈ toDrop) ∧
    (∀ ei, ei ∈ toDrop → ei < spans.length →
      ((spans.getD ei (0, 0, "")).1, (spans.getD ei (0, 0, "")).2.1, "O") ∈
        nullify_entities_after_prepositions text spans preps n) := by
  have hdisj : ∀ a b : Nat, a ≠ b → ∀ x ∈ wsi a, x ∉ wsi b := by
    rw [hwsi]
    exact wordSpanIdxs_disjoint _
  have hnd : sortedEW.Nodup := by
    rw [hsew]
    exact sortedEntityWordIdxs_nodup _ _
  refine ⟨?_, ?_, ?_⟩
  · rw [hdrop, nullifyDropSet, toDropSpanIdxs, ← hwsi, ← hsew, ← hprep,
      toDrop_foldl_eq wsi sortedEW n hn hdisj hnd]
  · intro p hp ei hei
    rw [hdrop, nullifyDropSet, toDropSpanIdxs, ← hwsi, ← hsew, ← hprep]
    exact foldl_processPrep_mem wsi sortedEW n prepIdxs [] ei (Or.inr ⟨p, hp, hei⟩)
  · intro ei hei hlen
    have hspne : ¬ (spans = []) := by
      intro h
      rw [h] at hlen
      simp at hlen
    have hcond2 : ¬ (nullifyDropSet text spans preps n = [] ∧
        prepWordIdxs (split_words_with_offsets text) preps = []) := by
      intro hc
      rw [hdrop, hc.1] at hei
      simp at hei
    rw [nullify_entities_after_prepositions, if_neg hspne, if_neg hcond2]
    apply mem_sortSpans.mpr
    apply foldl_addPrepO_sub
    have hb1 : spans[ei]? = some (spans.getD ei (0, 0, "")) := by
      rw [List.getD_eq_getElem?_getD, List.getElem?_eq_getElem hlen]
      rfl
    have hval : (spans.enum.map (fun p =>
        if p.1 ∈ nullifyDropSet text spans preps n then (p.2.1, p.2.2.1, "O")
        else p.2))[ei]? =
        some ((spans.getD ei (0, 0, "")).1, (spans.getD ei (0, 0, "")).2.1, "O") := by
      rw [List.getElem?_map, List.getElem?_enum, hb1]
      simp only [Option.map_some']
      rw [if_pos (by rw [← hdrop]; exact hei)]
    exact List.getElem?_mem hval

/-- Witness for C10 at the text `"в пакете молоко 3.2%"` with a single
`PERCENT` span three words after the preposition `"в"`: the two words in
between carry no spans, so they do not consume the window, and the distant
span is still nullified. -/
theorem prep_window_counts_entity_words_witness :
    ((16, 20, "O") : Span) ∈
      nullify_entities_after_prepositions "в пакете молоко 3.2%".toList
        [(16, 20, "B-PERCENT")] default_prepositions 2 :=
  (prep_window_counts_entity_words "в пакете молоко 3.2%".toList
    [(16, 20, "B-PERCENT")] default_prepositions 2
    (wordSpanIdxs (entWordIdx (split_words_with_offsets "в пакете молоко 3.2%".toList)
      [(16, 20, "B-PERCENT")]))
    (sortedEntityWordIdxs (split_words_with_offsets "в пакете молоко 3.2%".toList)
      (entWordIdx (split_words_with_offsets "в пакете молоко 3.2%".toList)
        [(16, 20, "B-PERCENT")]))
    (prepWordIdxs (split_words_with_offsets "в пакете молоко 3.2%".toList)
      default_prepositions)
    (nullifyDropSet "в пакете молоко 3.2%".toList [(16, 20, "B-PERCENT")]
      default_prepositions 2)
    (by decide) rfl rfl rfl rfl).2.2 0 (by decide) (by decide)
